import Mathlib

/-!
Verification of state-bench: the ancient-table reader and the key-value walker.

A shallow embedding of `main.go`.  Files are byte lists, Go slices are lists,
`uint16`/`uint32`/`uint64` values are natural numbers reduced modulo `2^w`
wherever the source can overflow, and a Go `panic` is the error side of
`Except`.  A Go result pair `(*Block, error)` is the pair type `NextResult`.

External collaborators: the record decoders `UnmarshalRLP` and `snappy.Decode`
are parameters (`Codec`); the ordered key-value engine is modelled by its
interface, its cursor handing out slices of its own key and value buffers.
-/

namespace StateBench

set_option autoImplicit false

/-- One byte. -/
abbrev Byte := Fin 256

/-- Truncating conversion `byte(v)`. -/
def byte (v : Nat) : Byte := ⟨v % 256, Nat.mod_lt _ (by decide)⟩

/-- Go error values seen by this program, and the values it panics with. -/
inductive GoError where
  /-- `os.ErrInvalid`: a method was called on a nil `*os.File`. -/
  | errInvalid
  /-- `ReadAt` was given a negative offset. -/
  | negativeOffset
  /-- `io.EOF`: the file ended before the buffer was filled. -/
  | eof
  /-- Run-time panic of a slice expression or index out of range. -/
  | outOfRange
  /-- `leveldb.ErrNotFound`. -/
  | notFound
  /-- An error for which `errors.Is(err, os.ErrNotExist)` holds. -/
  | notExist
  /-- An error produced by an external decoder. -/
  | external (code : Nat)
  /-- Result of `fmt.Errorf (msg ++ ": %v") inner`. -/
  | wrapped (msg : String) (inner : GoError)
  /-- Result of `fmt.Errorf msg`. -/
  | message (msg : String)
  deriving DecidableEq

/-- Contents of an open file; a nil `*os.File` is `none`. -/
abbrev File := List Byte

/-- Conversion `int64(x)` of a 64-bit pattern (two's complement). -/
def toInt64 (x : Nat) : Int :=
  if x % 2 ^ 64 < 2 ^ 63 then ((x % 2 ^ 64 : Nat) : Int) else ((x % 2 ^ 64 : Nat) : Int) - 2 ^ 64

/-- Method `(*os.File).ReadAt(b, off)` with `len(b) = n`: the bytes read, or the
error.  A nil receiver gives `ErrInvalid`, a negative offset an error, and a
file that ends before `n` bytes are read gives `io.EOF`; a zero-length buffer
reads nothing and succeeds. -/
def ReadAt (f : Option File) (n : Nat) (off : Int) : Except GoError (List Byte) :=
  match f with
  | none => .error .errInvalid
  | some bytes =>
    if off < 0 then .error .negativeOffset
    else
      let got := (bytes.drop off.toNat).take n
      if got.length < n then .error .eof else .ok got

/-- Constant `indexEntrySize`. -/
def indexEntrySize : Nat := 6

/-- Struct `indexEntry`: `FileNum` is a `uint16`, `Offset` a `uint32`; entries
made by `Unmarshal` are in range. -/
structure indexEntry where
  FileNum : Nat
  Offset : Nat
  deriving DecidableEq

/-- Function `binary.BigEndian.Uint16`; panics on fewer than two bytes. -/
def Uint16 (b : List Byte) : Except GoError Nat :=
  match b with
  | b0 :: b1 :: _ => .ok (b0.val * 256 + b1.val)
  | _ => .error .outOfRange

/-- Function `binary.BigEndian.Uint32`; panics on fewer than four bytes. -/
def Uint32 (b : List Byte) : Except GoError Nat :=
  match b with
  | b0 :: b1 :: b2 :: b3 :: _ =>
    .ok (b0.val * 2 ^ 24 + b1.val * 2 ^ 16 + b2.val * 2 ^ 8 + b3.val)
  | _ => .error .outOfRange

/-- Method `indexEntry.Unmarshal`: `FileNum` from `b[:2]`, `Offset` from `b[2:]`.
Both slice expressions panic when `b` has fewer than two bytes. -/
def indexEntry.Unmarshal (b : List Byte) : Except GoError indexEntry :=
  if b.length < 2 then .error .outOfRange
  else do
    let fileNum ← Uint16 (b.take 2)
    let offset ← Uint32 (b.drop 2)
    pure { FileNum := fileNum, Offset := offset }

/-- Function `marshalUint64`: eight bytes, most significant first.  Each byte
is truncated, so the argument is read modulo `2^64`. -/
def marshalUint64 (num : Nat) : List Byte :=
  [byte (num / 2 ^ 56), byte (num / 2 ^ 48), byte (num / 2 ^ 40), byte (num / 2 ^ 32),
   byte (num / 2 ^ 24), byte (num / 2 ^ 16), byte (num / 2 ^ 8), byte num]

/-- Function `binary.BigEndian.Uint64`; panics on fewer than eight bytes. -/
def Uint64 (b : List Byte) : Except GoError Nat :=
  match b with
  | b0 :: b1 :: b2 :: b3 :: b4 :: b5 :: b6 :: b7 :: _ =>
    .ok (b0.val * 2 ^ 56 + b1.val * 2 ^ 48 + b2.val * 2 ^ 40 + b3.val * 2 ^ 32 +
         b4.val * 2 ^ 24 + b5.val * 2 ^ 16 + b6.val * 2 ^ 8 + b7.val)
  | _ => .error .outOfRange

/-- Function `unmarshalUint64`. -/
def unmarshalUint64 (b : List Byte) : Except GoError Nat := Uint64 b

/-- The external collaborators: the typed records with their `UnmarshalRLP`
decoders (each applied to a fresh object) and `snappy.Decode`. -/
structure Codec where
  Header : Type
  Body : Type
  Transaction : Type
  Receipt : Type
  /-- Field `Body.Transactions`. -/
  transactions : Body → List Transaction
  /-- Method `Header.UnmarshalRLP` on `new(Header)`. -/
  unmarshalHeader : List Byte → Except GoError Header
  /-- Method `Body.UnmarshalRLP` on `new(Body)`. -/
  unmarshalBody : List Byte → Except GoError Body
  /-- Method `Receipts.UnmarshalRLP` on `new(Receipts)`. -/
  unmarshalReceipts : List Byte → Except GoError (List Receipt)
  /-- Function `snappy.Decode(nil, b)`. -/
  snappyDecode : List Byte → Except GoError (List Byte)

/-- Struct `ancientTable`.  The map `data` sends a file number to its open
file; a missing key reads as the nil file. -/
structure ancientTable where
  path : String
  name : String
  compressed : Bool
  index : Option File
  data : Nat → Option File

/-- Closure `seek` of `readData`: the index entry stored at byte
`int64(num) * indexEntrySize` of the index file; panics when the read fails. -/
def ancientTable.seek (a : ancientTable) (num : Nat) : Except GoError indexEntry := do
  let buf ← ReadAt a.index indexEntrySize (toInt64 (num * indexEntrySize))
  indexEntry.Unmarshal buf

/-- Body of the loop `for i := from + 1; i < to; i++` of `readData`, run for
`steps = to - i` iterations (the counter never wraps because `i < to`).
The buffer length `nextIndx.Offset - indx.Offset` is a `uint32` difference. -/
def ancientTable.readLoop (c : Codec) (a : ancientTable) :
    Nat → Nat → indexEntry → List Byte → Except GoError (List Byte)
  | 0, _, _, dst => .ok dst
  | steps + 1, i, indx, dst => do
    let nextIndx ← a.seek i
    let raw ← ReadAt (a.data indx.FileNum)
      ((nextIndx.Offset + 2 ^ 32 - indx.Offset) % 2 ^ 32) (Int.ofNat indx.Offset)
    let b ← if a.compressed then c.snappyDecode raw else pure raw
    ancientTable.readLoop c a steps (i + 1) nextIndx
      (dst ++ marshalUint64 b.length ++ b)

/-- Method `ancientTable.readData(dst, from, count)`; `from` and `count` are
`uint64`, so `from + 1` and `to = from + count + 1` are taken modulo `2^64`. -/
def ancientTable.readData (c : Codec) (a : ancientTable) (dst : List Byte)
    (frm count : Nat) : Except GoError (List Byte) := do
  let indx ← a.seek frm
  let to_ := (frm + count + 1) % 2 ^ 64
  let start := (frm + 1) % 2 ^ 64
  ancientTable.readLoop c a (to_ - start) start indx dst

/-! ## Ancient store reader -/

/-- Struct `Block`. -/
structure Block (c : Codec) where
  Header : c.Header
  Transactions : List c.Transaction
  Receipts : List c.Receipt

/-- Result pair `(*Block, error)` of `Next`; a nil component is `none`. -/
abbrev NextResult (c : Codec) := Option (Block c) × Option GoError

/-- Struct `ancientTables`. -/
structure ancientTables where
  headers : ancientTable
  bodies : ancientTable
  receipts : ancientTable

/-- Struct `AncientIterator`; `seek` is a `uint64`. -/
structure AncientIterator where
  path : String
  tables : ancientTables
  seek : Nat

/-- Method `AncientIterator.Seek`: stores the number and returns `false`. -/
def AncientIterator.Seek (i : AncientIterator) (number : Nat) : AncientIterator × Bool :=
  ({ i with seek := number }, false)

/-- Closure `decode` of `AncientIterator.Next`: read one record at the cursor,
drop the 8-byte length (a slice expression that panics on a shorter buffer) and
hand the rest to `UnmarshalRLP`.  The outer `Except` is a panic, the inner one
the error returned by the decoder. -/
def AncientIterator.decode (c : Codec) (i : AncientIterator) {α : Type}
    (unmarshalRLP : List Byte → Except GoError α) (table : ancientTable) :
    Except GoError (Except GoError α) := do
  let dst ← table.readData c [] i.seek 1
  if dst.length < 8 then .error .outOfRange
  else pure (unmarshalRLP (dst.drop 8))

/-- Method `AncientIterator.Next`: the returned pair and the reader afterwards,
or the panic.  The cursor is incremented (`uint64`) only on the path that
returns the block. -/
def AncientIterator.Next (c : Codec) (i : AncientIterator) :
    Except GoError (NextResult c × AncientIterator) := do
  match ← i.decode c c.unmarshalHeader i.tables.headers with
  | .error err => pure ((none, some err), i)
  | .ok header =>
    match ← i.decode c c.unmarshalBody i.tables.bodies with
    | .error err => pure ((none, some err), i)
    | .ok body =>
      pure ((some { Header := header, Transactions := c.transactions body, Receipts := [] },
             none), { i with seek := (i.seek + 1) % 2 ^ 64 })

/-- Run `k` calls of `AncientIterator.Next` that each return a block: the blocks
in call order and the reader afterwards; `none` when some call panics or
returns no block. -/
def AncientIterator.nextBlocks (c : Codec) :
    Nat → AncientIterator → Option (List (Block c) × AncientIterator)
  | 0, i => some ([], i)
  | k + 1, i =>
    match i.Next c with
    | .ok ((some block, none), i1) =>
      match AncientIterator.nextBlocks c k i1 with
      | some (blocks, i2) => some (block :: blocks, i2)
      | none => none
    | _ => none

/-! ## Ordered key-value walker -/

/-- Modelled from the spec: the contents of the ordered key-value source
(`leveldb.DB`, opened read-only), its rows in ascending key order. -/
abbrev DB := List (List Byte × List Byte)

/-- Modelled from the spec: the byte-wise key order of the source,
`bytes.Compare(a, b) <= 0`. -/
def bytesLE : List Byte → List Byte → Bool
  | [], _ => true
  | _ :: _, [] => false
  | x :: xs, y :: ys => if x < y then true else if y < x then false else bytesLE xs ys

/-- Modelled from the spec: point lookup `get(key) -> (bytes, error)` of the
source (`db.Get`); a key without a row gives `leveldb.ErrNotFound`. -/
def DB.Get : DB → List Byte → Except GoError (List Byte)
  | [], _ => .error .notFound
  | row :: rest, key => if row.1 = key then .ok row.2 else DB.Get rest key

/-- Modelled from the spec: position of the ordered cursor
(`iterator.Iterator`): before the first row, on row `k`, or exhausted. -/
inductive IterPos where
  | start
  | row (k : Nat)
  | done
  deriving DecidableEq

/-- Modelled from the spec: `key() -> bytes` of the cursor at the time of the
call; nil off a row. -/
def iterKey (db : DB) : IterPos → List Byte
  | .row k => ((db[k]?).map Prod.fst).getD []
  | _ => []

/-- Modelled from the spec: `value() -> bytes` of the cursor at the time of the
call; nil off a row. -/
def iterValue (db : DB) : IterPos → List Byte
  | .row k => ((db[k]?).map Prod.snd).getD []
  | _ => []

/-- Modelled from the spec: position part of `next() -> bool`: move one row
forward; `false`, and exhausted, when there is no further row. -/
def iterNext (db : DB) : IterPos → IterPos × Bool
  | .start => if 0 < db.length then (.row 0, true) else (.done, false)
  | .row k => if k + 1 < db.length then (.row (k + 1), true) else (.done, false)
  | .done => (.done, false)

/-- Modelled from the spec: index of the first row whose key is greater than or
equal to `key`, the row `seek(key)` moves to. -/
def firstGE (key : List Byte) : DB → Option Nat
  | [] => none
  | row :: rest => if bytesLE key row.1 then some 0 else (firstGE key rest).map (· + 1)

/-- Modelled from the spec: position part of `seek(key) -> bool`: move to the first
row whose key is greater than or equal to `key`; `false`, and exhausted, when
there is none. -/
def iterSeek (db : DB) (key : List Byte) : IterPos × Bool :=
  match firstGE key db with
  | some k => (.row k, true)
  | none => (.done, false)

/-- Modelled from the spec: the Go runtime's choice of capacity when `append`
has to allocate: `growCap cap need` is the capacity of the array that replaces
a buffer of capacity `cap` which must hold `need` bytes. -/
structure Runtime where
  growCap : Nat → Nat → Nat

/-- Modelled from the spec: capacity of a buffer of capacity `cap` after
`append(buf[:0], data...)` with `len(data) = need`: unchanged when the data fits
(the buffer is overwritten in place), otherwise the capacity of the new array,
which holds at least `need` bytes. -/
def growTo (rt : Runtime) (cap need : Nat) : Nat :=
  if need ≤ cap then cap else max need (rt.growCap cap need)

/-- Modelled from the spec: contents of a slice that held `old`, taken from a
buffer of capacity `cap`, after the buffer's owner ran `append(buf[:0], new...)`: when `new` fits the
capacity it was written over the start of the same array, so the slice reads
the bytes of `new` and, past them, what is left of `old`; when it does not fit
a new array was allocated and the slice still reads `old`. -/
def sliceAfter (old : List Byte) (cap : Nat) (new : List Byte) : List Byte :=
  if new.length ≤ cap then new.take old.length ++ old.drop new.length else old

/-- Modelled from the spec: the ordered cursor (`iterator.Iterator`): its
position and the capacities of its key buffer and its value buffer (goleveldb's
`dbIter` keeps the two buffers and refills them with `append(buf[:0], ...)`).
On a row the buffers hold that row's key and value, and `key()` and `value()`
return slices of the buffers themselves. -/
structure Cursor where
  pos : IterPos
  keyCap : Nat
  valueCap : Nat

/-- Modelled from the spec: the cursor after a move to `pos`: landing on a row
refills both buffers with the row's key and value (`append(buf[:0], ...)`);
a move off the rows leaves the buffers alone. -/
def Cursor.land (rt : Runtime) (db : DB) (cur : Cursor) (pos : IterPos) : Cursor :=
  match pos with
  | .row k =>
    { pos := .row k,
      keyCap := growTo rt cur.keyCap (iterKey db (.row k)).length,
      valueCap := growTo rt cur.valueCap (iterValue db (.row k)).length }
  | p => { cur with pos := p }

/-- Modelled from the spec: `next() -> bool` of the cursor, buffers included. -/
def cursorNext (rt : Runtime) (db : DB) (cur : Cursor) : Cursor × Bool :=
  (cur.land rt db (iterNext db cur.pos).1, (iterNext db cur.pos).2)

/-- Modelled from the spec: `seek(key) -> bool` of the cursor, buffers included. -/
def cursorSeek (rt : Runtime) (db : DB) (cur : Cursor) (key : List Byte) : Cursor × Bool :=
  (cur.land rt db (iterSeek db key).1, (iterSeek db key).2)

/-- Modelled from the spec: what the slice returned by `key()` before a call of
`next()` reads after that call: the next row's key written over it when the cursor landed on a row
whose key fits the key buffer, its own bytes otherwise. -/
def keyAfterNext (db : DB) (cur : Cursor) : List Byte :=
  match (iterNext db cur.pos).1 with
  | .row k => sliceAfter (iterKey db cur.pos) cur.keyCap (iterKey db (.row k))
  | _ => iterKey db cur.pos

/-- Modelled from the spec: what the slice returned by `value()` before a call
of `next()` reads after that call. -/
def valueAfterNext (db : DB) (cur : Cursor) : List Byte :=
  match (iterNext db cur.pos).1 with
  | .row k => sliceAfter (iterValue db cur.pos) cur.valueCap (iterValue db (.row k))
  | _ => iterValue db cur.pos

/-- Struct `LevelDBIterator`. -/
structure LevelDBIterator where
  db : DB
  iter : Cursor

/-- Variable `headerPrefix`, the byte `'h'`. -/
def headerPrefix : List Byte := [104]

/-- Variable `blockBodyPrefix`, the byte `'b'`. -/
def blockBodyPrefix : List Byte := [98]

/-- Variable `blockReceiptsPrefix`, the byte `'r'`. -/
def blockReceiptsPrefix : List Byte := [114]

/-- Function `decodeKey`: `unmarshalUint64(b[1:9])` and `b[9:]`; the slice
expressions panic on fewer than nine bytes. -/
def decodeKey (b : List Byte) : Except GoError (Nat × List Byte) :=
  if b.length < 9 then .error .outOfRange
  else do
    let num ← unmarshalUint64 ((b.drop 1).take 8)
    pure (num, b.drop 9)

/-- Function `headerByNumberPrefix`. -/
def headerByNumberPrefix (number : Nat) : List Byte :=
  headerPrefix ++ marshalUint64 number

/-- Function `blockBodyKey`. -/
def blockBodyKey (number : Nat) (hash : List Byte) : List Byte :=
  blockBodyPrefix ++ marshalUint64 number ++ hash

/-- Function `blockReceiptsKey`. -/
def blockReceiptsKey (number : Nat) (hash : List Byte) : List Byte :=
  blockReceiptsPrefix ++ marshalUint64 number ++ hash

/-- Method `LevelDBIterator.decodeBlock`: the returned pair, or the panic of
`decodeKey`. -/
def LevelDBIterator.decodeBlock (c : Codec) (db : DB) (key val : List Byte)
    (includeReceipts : Bool) : Except GoError (NextResult c) := do
  let (num, hash) ← decodeKey key
  match c.unmarshalHeader val with
  | .error err => pure (none, some (.wrapped "failed to decode header" err))
  | .ok header =>
    match db.Get (blockBodyKey num hash) with
    | .error err => pure (none, some err)
    | .ok bodyRaw =>
      match c.unmarshalBody bodyRaw with
      | .error err => pure (none, some (.wrapped "failed to decode body" err))
      | .ok body =>
        if includeReceipts then
          match db.Get (blockReceiptsKey num hash) with
          | .error err => pure (none, some err)
          | .ok receiptsRaw =>
            match c.unmarshalReceipts receiptsRaw with
            | .error err => pure (none, some (.wrapped "failed to decode receipts" err))
            | .ok receipts =>
              pure (some { Header := header, Transactions := c.transactions body,
                           Receipts := receipts }, none)
        else
          pure (some { Header := header, Transactions := c.transactions body,
                       Receipts := [] }, none)

/-- Method `LevelDBIterator.Seek`. -/
def LevelDBIterator.Seek (rt : Runtime) (i : LevelDBIterator) (number : Nat) :
    LevelDBIterator × Bool :=
  let r := cursorSeek rt i.db i.iter (headerByNumberPrefix number)
  ({ i with iter := r.1 }, r.2)

/-- Loop of `LevelDBIterator.Next`, one round per unit of `fuel`.  A round takes
the slices `key` and `val` from the cursor.  When the key is not 41 bytes long
it runs the post statement `ok = i.iter.Next()` and loops while `ok`.  When the
key is 41 bytes long it calls `i.iter.Next()` and only then `decodeBlock(key,
val, false)`: the two slices are read after the cursor refilled its buffers, so
the decoder sees `keyAfterNext` and `valueAfterNext` (the `fmt.Println` of the
pair only writes to standard output).  Every looping round moves the cursor one
row forward, so `db.length + 1` rounds always suffice and the round at
`fuel = 0` is not reached. -/
def LevelDBIterator.nextLoop (c : Codec) (rt : Runtime) (db : DB) :
    Nat → Cursor → Except GoError (NextResult c × Cursor)
  | 0, cur => pure ((none, none), cur)
  | fuel + 1, cur =>
    if (iterKey db cur.pos).length ≠ 41 then
      let r := cursorNext rt db cur
      if r.2 then LevelDBIterator.nextLoop c rt db fuel r.1
      else pure ((none, none), r.1)
    else
      let r := cursorNext rt db cur
      (LevelDBIterator.decodeBlock c db (keyAfterNext db cur) (valueAfterNext db cur)
        false).map fun res => (res, r.1)

/-- Method `LevelDBIterator.Next`: the returned pair and the iterator
afterwards, or the panic. -/
def LevelDBIterator.Next (c : Codec) (rt : Runtime) (i : LevelDBIterator) :
    Except GoError (NextResult c × LevelDBIterator) :=
  (LevelDBIterator.nextLoop c rt i.db (i.db.length + 1) i.iter).map
    fun r => (r.1, { i with iter := r.2 })

/-- Run `k` calls of `LevelDBIterator.Next` that each return a block: the blocks
in call order and the iterator afterwards; `none` when some call panics or
returns no block. -/
def LevelDBIterator.nextBlocks (c : Codec) (rt : Runtime) :
    Nat → LevelDBIterator → Option (List (Block c) × LevelDBIterator)
  | 0, i => some ([], i)
  | k + 1, i =>
    match i.Next c rt with
    | .ok ((some block, none), i1) =>
      match LevelDBIterator.nextBlocks c rt k i1 with
      | some (blocks, i2) => some (block :: blocks, i2)
      | none => none
    | _ => none

/-! ## Opening a table -/

/-- The operating-system collaborators of `newAncientTable`: `filepath.Join`,
the error result of `os.Stat` (`none` when the file exists) and `os.Open`
(the open file's contents, or the error). -/
structure OS where
  Join : String → String → String
  Stat : String → Option GoError
  Open : String → Except GoError File

/-- Function `exists`: `(true, nil)` when `os.Stat` succeeds, `(false, nil)` when
its error is `os.ErrNotExist`, and `(false, err)` otherwise. -/
def exists_ (os : OS) (name : String) : Bool × Option GoError :=
  match os.Stat name with
  | none => (true, none)
  | some err => if err = .notExist then (false, none) else (false, some err)

/-- Method `ancientTable.getIndexName`. -/
def ancientTable.getIndexName (os : OS) (a : ancientTable) (compressed : Bool) : String :=
  let ext := if compressed then "cidx" else "ridx"
  os.Join a.path (a.name ++ "." ++ ext)

/-- Verb `%04d` of `fmt.Sprintf` on an unsigned number: decimal digits, padded
with zeros on the left to four characters. -/
def fmt04d (n : Nat) : String :=
  String.mk (List.replicate (4 - (toString n).length) '0') ++ toString n

/-- Method `ancientTable.getDataName`. -/
def ancientTable.getDataName (os : OS) (a : ancientTable) (indx : Nat)
    (compressed : Bool) : String :=
  let ext := if compressed then "cdat" else "rdat"
  os.Join a.path (a.name ++ "." ++ fmt04d indx ++ "." ++ ext)

/-- Method `ancientTable.checkIndex`: the table afterwards and the returned
error. -/
def ancientTable.checkIndex (os : OS) (a : ancientTable) : ancientTable × Option GoError :=
  match exists_ os (a.getIndexName os true) with
  | (_, some err) => (a, some err)
  | (hasCompr, none) =>
    match exists_ os (a.getIndexName os false) with
    | (_, some err) => (a, some err)
    | (hasNormal, none) =>
      if !hasCompr && !hasNormal then (a, some (.message "table not found"))
      else if hasCompr && hasNormal then
        (a, some (.message "both compress and uncompress index found"))
      else ({ a with compressed := hasCompr }, none)

/-- Loop `for i := firstEntry.FileNum; i < lastEntry.FileNum; i++` of
`openDataFiles`, run for `steps = lastEntry.FileNum - i` rounds (the `uint16`
counter never wraps because `i < lastEntry.FileNum`): open the data file of
number `i` and store it in the map; the first failing `os.Open` returns its
error. -/
def ancientTable.openLoop (os : OS) :
    Nat → Nat → ancientTable → ancientTable × Option GoError
  | 0, _, a => (a, none)
  | steps + 1, i, a =>
    match os.Open (a.getDataName os i a.compressed) with
    | .error err => (a, some err)
    | .ok f =>
      ancientTable.openLoop os steps (i + 1)
        { a with data := fun j => if j = i then some f else a.data j }

/-- Closure `readAt` of `openDataFiles`: the entry decoded from the six bytes at
`pos`, or the error of the read (inner `Except`); the outer `Except` is the
panic of `Unmarshal`. -/
def ancientTable.readAt (a : ancientTable) (pos : Int) :
    Except GoError (Except GoError indexEntry) :=
  match ReadAt a.index indexEntrySize pos with
  | .error err => pure (.error err)
  | .ok buf => do
    let entry ← indexEntry.Unmarshal buf
    pure (.ok entry)

/-- Method `ancientTable.openDataFiles`: the table afterwards and the returned
error, or the panic.  `Stat` on a nil index file gives `ErrInvalid`; the size of
an open index file is the length of its contents. -/
def ancientTable.openDataFiles (os : OS) (a : ancientTable) :
    Except GoError (ancientTable × Option GoError) :=
  match a.index with
  | none => pure (a, some .errInvalid)
  | some idx => do
    match ← a.readAt 0 with
    | .error err => pure (a, some err)
    | .ok firstEntry =>
      match ← a.readAt ((idx.length : Int) - (indexEntrySize : Int)) with
      | .error err => pure (a, some err)
      | .ok lastEntry =>
        pure (ancientTable.openLoop os (lastEntry.FileNum - firstEntry.FileNum)
          firstEntry.FileNum a)

/-- Function `newAncientTable`: the returned pair `(*ancientTable, error)`, or
the panic. -/
def newAncientTable (os : OS) (path name : String) :
    Except GoError (Option ancientTable × Option GoError) :=
  let t : ancientTable :=
    { path := path, name := name, compressed := false, index := none, data := fun _ => none }
  match t.checkIndex os with
  | (_, some err) => pure (none, some err)
  | (t1, none) =>
    match os.Open (t1.getIndexName os t1.compressed) with
    | .error err => pure (none, some err)
    | .ok idx => do
      match ← ancientTable.openDataFiles os { t1 with index := some idx } with
      | (_, some err) => pure (none, some err)
      | (t2, none) => pure (some t2, none)

/-! ## Reference description of a table's records -/

/-- Index entry `e[i]`: the six bytes at byte `6 * i` of the index file, a
big-endian 16-bit file number followed by a big-endian 32-bit offset. -/
def entryAt (idx : File) (i : Nat) : indexEntry :=
  let b := idx.drop (indexEntrySize * i)
  { FileNum := (b.getD 0 0).val * 256 + (b.getD 1 0).val,
    Offset := (b.getD 2 0).val * 2 ^ 24 + (b.getD 3 0).val * 2 ^ 16 +
      (b.getD 4 0).val * 2 ^ 8 + (b.getD 5 0).val }

/-- Length `L_i` of record `i`: the `uint32` difference
`e[i+1].offset - e[i].offset`. -/
def recordLen (idx : File) (i : Nat) : Nat :=
  ((entryAt idx (i + 1)).Offset + 2 ^ 32 - (entryAt idx i).Offset) % 2 ^ 32

/-- The `L_i` bytes of data file `e[i].fileNumber` starting at `e[i].offset`. -/
def recordBytes (a : ancientTable) (idx : File) (i : Nat) : List Byte :=
  (((a.data (entryAt idx i).FileNum).getD []).drop (entryAt idx i).Offset).take
    (recordLen idx i)

/-- Length-prefixed record `i`: eight big-endian length bytes, then the bytes. -/
def segment (a : ancientTable) (idx : File) (i : Nat) : List Byte :=
  marshalUint64 (recordLen idx i) ++ recordBytes a idx i

/-- Segments of records `i, i+1, ..., i+count-1`, concatenated in that order. -/
def segments (a : ancientTable) (idx : File) : Nat → Nat → List Byte
  | _, 0 => []
  | i, count + 1 => segment a idx i ++ segments a idx (i + 1) count

/-- Number of records of a table whose index file is `idx`: the index holds one
entry more than there are records. -/
def recordCount (idx : File) : Nat := idx.length / indexEntrySize - 1

/-- Worker of `splitSegments`; every round consumes at least eight bytes, so
`fuel = buf.length` rounds exhaust the buffer. -/
def splitSegmentsAux : Nat → List Byte → List (List Byte)
  | 0, _ => []
  | fuel + 1, buf =>
    match Uint64 buf with
    | .error _ => []
    | .ok len =>
      if buf.length < 8 + len then []
      else buf.take (8 + len) :: splitSegmentsAux fuel (buf.drop (8 + len))

/-- Split a buffer into its length-prefixed segments: read an 8-byte big-endian
length `len`, cut off those 8 bytes and the `len` bytes after them, repeat. -/
def splitSegments (buf : List Byte) : List (List Byte) :=
  splitSegmentsAux buf.length buf

/-- A length-prefixed segment: eight length bytes, then that many bytes. -/
def IsSegment (seg : List Byte) : Prop :=
  ∃ b : List Byte, b.length < 2 ^ 64 ∧ seg = marshalUint64 b.length ++ b

/-- One round of the loop of `readData` at counter `i`, as a value: the entry
read (`nextIndx`) and the bytes the round appends to `dst`. -/
def ancientTable.readOne (c : Codec) (a : ancientTable) (i : Nat) (indx : indexEntry) :
    Except GoError (indexEntry × List Byte) := do
  let nextIndx ← a.seek i
  let raw ← ReadAt (a.data indx.FileNum)
    ((nextIndx.Offset + 2 ^ 32 - indx.Offset) % 2 ^ 32) (Int.ofNat indx.Offset)
  let b ← if a.compressed then c.snappyDecode raw else pure raw
  pure (nextIndx, marshalUint64 b.length ++ b)

/-- What `AncientIterator.Next` hands to a decoder for cursor value `p`: the
single-record read `readData(nil, p, 1)` without its 8-byte length, `none` when
the read aborts. -/
def readPayload (c : Codec) (t : ancientTable) (p : Nat) : Option (List Byte) :=
  match t.readData c [] p 1 with
  | .ok dst => if dst.length < 8 then none else some (dst.drop 8)
  | .error _ => none

/-- Block that `AncientIterator.Next` assembles for cursor value `p`. -/
def blockRead (c : Codec) (tables : ancientTables) (p : Nat) : Option (Block c) :=
  match readPayload c tables.headers p, readPayload c tables.bodies p with
  | some h, some b =>
    match c.unmarshalHeader h, c.unmarshalBody b with
    | .ok header, .ok body =>
      some { Header := header, Transactions := c.transactions body, Receipts := [] }
    | _, _ => none
  | _, _ => none

/-- Record at logical position `p` of a table, by the data model: the index
file holds entries `p` and `p + 1`, and the record is the `L_p` bytes of data
file `e[p].fileNumber` from byte `e[p].offset`, decompressed when the table is
compressed; `none` when an entry, the data file or one of the bytes is missing
or the bytes do not decompress. -/
def recordAt (c : Codec) (t : ancientTable) (p : Nat) : Option (List Byte) :=
  match t.index with
  | none => none
  | some idx =>
    if idx.length < indexEntrySize * (p + 2) then none
    else
      match t.data (entryAt idx p).FileNum with
      | none => none
      | some f =>
        if f.length - (entryAt idx p).Offset < recordLen idx p then none
        else if t.compressed then
          match c.snappyDecode (recordBytes t idx p) with
          | .ok b => some b
          | .error _ => none
        else some (recordBytes t idx p)

/-- Block at logical position `p`: header decoded from the record at `p` of the
headers table, transactions from the record at `p` of the bodies table, no
receipts. -/
def blockAt (c : Codec) (tables : ancientTables) (p : Nat) : Option (Block c) :=
  match recordAt c tables.headers p, recordAt c tables.bodies p with
  | some h, some b =>
    match c.unmarshalHeader h, c.unmarshalBody b with
    | .ok header, .ok body =>
      some { Header := header, Transactions := c.transactions body, Receipts := [] }
    | _, _ => none
  | _, _ => none

/-- Header key of block `number` with hash `hash`: `'h' ++ u64be(number) ++ hash`. -/
def headerKey (number : Nat) (hash : List Byte) : List Byte :=
  headerByNumberPrefix number ++ hash

/-- Key-value source holding exactly one body row, one header row and one
receipts row for each number of the ascending list `nums`; block `m` has hash
`hash m` and row values `bv m`, `hv m`, `rv m`.  Body keys (`'b'`) sort before
header keys (`'h'`), which sort before receipts keys (`'r'`). -/
def tripleDB (nums : List Nat) (hash hv bv rv : Nat → List Byte) : DB :=
  nums.map (fun m => (blockBodyKey m (hash m), bv m)) ++
  (nums.map (fun m => (headerKey m (hash m), hv m)) ++
   nums.map (fun m => (blockReceiptsKey m (hash m), rv m)))

/-- Keys strictly ascending in the byte-wise order. -/
def KeysAscending (db : DB) : Prop :=
  db.Pairwise fun r s => bytesLE r.1 s.1 = true ∧ r.1 ≠ s.1

/-- Big-endian encoding of `n` in `w` bytes. -/
def beBytes : Nat → Nat → List Byte
  | 0, _ => []
  | w + 1, n => byte (n / 256 ^ w) :: beBytes w (n % 256 ^ w)


/-- Block of number `m` in a source whose header row for `m` decodes to `H m`
and whose body row decodes to `B m`; the walker requests no receipts. -/
def tripleBlock (c : Codec) (H : Nat → c.Header) (B : Nat → c.Body) (m : Nat) : Block c :=
  { Header := H m, Transactions := c.transactions (B m), Receipts := [] }

/-- The 6-byte encoding of an index entry: the file number as two big-endian
bytes followed by the offset as four big-endian bytes. -/
def encodeEntry (fileNumber offset : Nat) : List Byte :=
  [byte (fileNumber / 2 ^ 8), byte fileNumber,
   byte (offset / 2 ^ 24), byte (offset / 2 ^ 16), byte (offset / 2 ^ 8), byte offset]

/-- Entry stored in the last six bytes of the index file, the entry
`openDataFiles` reads at `stat.Size() - indexEntrySize`. -/
def lastEntryOf (idx : File) : indexEntry :=
  let b := idx.drop (idx.length - indexEntrySize)
  { FileNum := (b.getD 0 0).val * 256 + (b.getD 1 0).val,
    Offset := (b.getD 2 0).val * 2 ^ 24 + (b.getD 3 0).val * 2 ^ 16 +
      (b.getD 4 0).val * 2 ^ 8 + (b.getD 5 0).val }

/-! ## Fixtures -/

/-- A codec whose records are raw bytes: every record decoder accepts its
input, and the decompressor passes through blocks shorter than `2^32` bytes. -/
def rawCodec : Codec :=
  { Header := List Byte, Body := List Byte, Transaction := Byte, Receipt := Byte,
    transactions := id, unmarshalHeader := .ok, unmarshalBody := .ok,
    unmarshalReceipts := .ok,
    snappyDecode := fun raw => if raw.length < 2 ^ 32 then .ok raw else .error (.external 0) }

/-- Index of a two-record table: entries `(0, 0)`, `(0, 2)`, `(0, 5)`. -/
def twoRecordIndex : File := [0, 0, 0, 0, 0, 0, 0, 0, 0, 0, 0, 2, 0, 0, 0, 0, 0, 5]

/-- Uncompressed table over `twoRecordIndex` with data file 0 open. -/
def twoRecordTable : ancientTable :=
  { path := "", name := "t", compressed := false, index := some twoRecordIndex,
    data := fun n => if n = 0 then some [11, 12, 13, 14, 15, 16, 17] else none }


/-- Index with a file boundary after record 0: entries `(0, 0)`, `(0, 2)`, `(1, 4)`. -/
def boundaryIndex : File := [0, 0, 0, 0, 0, 0, 0, 0, 0, 0, 0, 2, 0, 1, 0, 0, 0, 4]

/-- Uncompressed table over `boundaryIndex`; data file 0 holds seven bytes. -/
def boundaryTable : ancientTable :=
  { path := "", name := "t", compressed := false, index := some boundaryIndex,
    data := fun n =>
      if n = 0 then some [11, 12, 13, 14, 15, 16, 17]
      else if n = 1 then some [21, 22, 23, 24] else none }

/-- Reader whose three tables are `twoRecordTable`, cursor at 0. -/
def twoRecordReader : AncientIterator :=
  { path := "", seek := 0,
    tables := { headers := twoRecordTable, bodies := twoRecordTable,
                receipts := twoRecordTable } }

/-- The raw codec with a header decoder that rejects every input. -/
def rejectingCodec : Codec :=
  { rawCodec with unmarshalHeader := fun _ => .error (.external 1) }

/-- Block at position 0 of `twoRecordReader` under `rawCodec`. -/
def twoRecordBlock0 : Block rawCodec :=
  { Header := ([11, 12] : List Byte), Transactions := ([11, 12] : List Byte),
    Receipts := ([] : List Byte) }

/-- Block at position 1 of `twoRecordReader` under `rawCodec`. -/
def twoRecordBlock1 : Block rawCodec :=
  { Header := ([13, 14, 15] : List Byte), Transactions := ([13, 14, 15] : List Byte),
    Receipts := ([] : List Byte) }

/-- Hash of block `m` in the fixtures: 32 copies of the byte `m`. -/
def fixtureHash (m : Nat) : List Byte := List.replicate 32 (byte m)

/-- Source with header, body and receipts rows for the numbers 5, 6 and 8. -/
def gapDB : DB :=
  tripleDB [5, 6, 8] fixtureHash (fun m => [1, byte m]) (fun m => [2, byte m])
    (fun m => [3, byte m])

/-- Source with auxiliary short keys around the body and header rows of block 5. -/
def mixedDB : DB :=
  [([1, 2, 3], [9]),
   (blockBodyKey 5 (fixtureHash 5), [2, 5]),
   ([100], [9]),
   (headerKey 5 (fixtureHash 5), [1, 5]),
   ([105], [7])]

/-- File system holding the uncompressed table `t` of `twoRecordTable`: index
file `d/t.ridx` and data file `d/t.0000.rdat`. -/
def singleFileOS : OS :=
  { Join := fun dir elem => dir ++ "/" ++ elem,
    Stat := fun name =>
      if name = "d/t.ridx" ∨ name = "d/t.0000.rdat" then none else some .notExist,
    Open := fun name =>
      if name = "d/t.ridx" then .ok twoRecordIndex
      else if name = "d/t.0000.rdat" then .ok [11, 12, 13, 14, 15, 16, 17]
      else .error .notExist }

/-- Table value `newAncientTable` starts from, for directory `d` and name `t`. -/
def freshTable : ancientTable :=
  { path := "d", name := "t", compressed := false, index := none, data := fun _ => none }

/-- Index whose offset decreases across a file boundary: entries `(0, 5)`, `(1, 2)`. -/
def decreasingIndex : File := [0, 0, 0, 0, 0, 5, 0, 1, 0, 0, 0, 2]

/-- Uncompressed table over `decreasingIndex` with data files 0 and 1 open. -/
def decreasingTable : ancientTable :=
  { path := "", name := "t", compressed := false, index := some decreasingIndex,
    data := fun n =>
      if n = 0 then some [11, 12, 13, 14, 15, 16, 17]
      else if n = 1 then some [21, 22] else none }

/-- The table `newAncientTable` returns on `singleFileOS`: index open, no data
file open. -/
def singleFileTable : ancientTable :=
  { path := "d", name := "t", compressed := false, index := some twoRecordIndex,
    data := fun _ => none }

/-- File system holding the uncompressed table `t` of `boundaryTable`: index
file `d/t.ridx` and data files `d/t.0000.rdat`, `d/t.0001.rdat`. -/
def boundaryOS : OS :=
  { Join := fun dir elem => dir ++ "/" ++ elem,
    Stat := fun name =>
      if name = "d/t.ridx" ∨ name = "d/t.0000.rdat" ∨ name = "d/t.0001.rdat" then none
      else some .notExist,
    Open := fun name =>
      if name = "d/t.ridx" then .ok boundaryIndex
      else if name = "d/t.0000.rdat" then .ok [11, 12, 13, 14, 15, 16, 17]
      else if name = "d/t.0001.rdat" then .ok [21, 22, 23, 24]
      else .error .notExist }

/-- The table `newAncientTable` returns on `boundaryOS`: only data file 0 open. -/
def boundaryOpened : ancientTable :=
  { path := "d", name := "t", compressed := false, index := some boundaryIndex,
    data := fun j => if j = 0 then some [11, 12, 13, 14, 15, 16, 17] else none }

/-- Source with the body row of block 6 and the header rows of blocks 5 and 6:
block 5 has no body row. -/
def missingBodyDB : DB :=
  [(blockBodyKey 6 (fixtureHash 6), [2, 6]),
   (headerKey 5 (fixtureHash 5), [1, 5]),
   (headerKey 6 (fixtureHash 6), [1, 6])]
/-! ## Lemmas on reads -/

theorem ok_bind {α β : Type} (x : α) (f : α → Except GoError β) :
    (Except.ok x >>= f) = f x := rfl

theorem error_bind {α β : Type} (e : GoError) (f : α → Except GoError β) :
    (Except.error e >>= f) = Except.error e := rfl

theorem toInt64_of_lt (x : Nat) (h : x < 2 ^ 63) : toInt64 x = (x : Int) := by
  have h1 : x % 2 ^ 64 = x := Nat.mod_eq_of_lt (by omega)
  unfold toInt64
  rw [h1, if_pos h]

theorem ReadAt_ok (bytes : File) (n off : Nat) (h : n ≤ bytes.length - off) :
    ReadAt (some bytes) n (off : Int) = .ok ((bytes.drop off).take n) := by
  have hlen : ¬ ((bytes.drop off).take n).length < n := by
    simp [List.length_take, List.length_drop]; omega
  have hoff : ¬ ((off : Int) < 0) := by omega
  simp only [ReadAt, hoff, if_false, Int.toNat_ofNat, hlen]

theorem Unmarshal_six (b0 b1 b2 b3 b4 b5 : Byte) :
    indexEntry.Unmarshal [b0, b1, b2, b3, b4, b5] =
      .ok { FileNum := b0.val * 256 + b1.val,
            Offset := b2.val * 2 ^ 24 + b3.val * 2 ^ 16 + b4.val * 2 ^ 8 + b5.val } := by
  rfl

theorem take_six_drop (idx : File) (k : Nat) (h : k + 6 ≤ idx.length) :
    ∃ b0 b1 b2 b3 b4 b5 rest, idx.drop k = b0 :: b1 :: b2 :: b3 :: b4 :: b5 :: rest := by
  have hl : 6 ≤ (idx.drop k).length := by simp [List.length_drop]; omega
  generalize idx.drop k = l at hl
  rcases l with _ | ⟨b0, _ | ⟨b1, _ | ⟨b2, _ | ⟨b3, _ | ⟨b4, _ | ⟨b5, rest⟩⟩⟩⟩⟩⟩ <;>
    simp at hl
  exact ⟨b0, b1, b2, b3, b4, b5, rest, rfl⟩

theorem seek_ok (a : ancientTable) (idx : File) (i : Nat) (hidx : a.index = some idx)
    (hsize : idx.length < 2 ^ 63) (hi : 6 * (i + 1) ≤ idx.length) :
    a.seek i = .ok (entryAt idx i) := by
  obtain ⟨b0, b1, b2, b3, b4, b5, rest, hd⟩ := take_six_drop idx (6 * i) (by omega)
  have hpos : toInt64 (i * indexEntrySize) = ((6 * i : Nat) : Int) := by
    rw [toInt64_of_lt _ (by simp [indexEntrySize]; omega)]
    simp [indexEntrySize, Nat.mul_comm]
  have hread : ReadAt (some idx) indexEntrySize ((6 * i : Nat) : Int) =
      .ok ((idx.drop (6 * i)).take indexEntrySize) :=
    ReadAt_ok idx indexEntrySize (6 * i) (by simp [indexEntrySize]; omega)
  simp only [ancientTable.seek, hidx, hpos, hread]
  simp only [hd, indexEntrySize, entryAt]
  have ht : List.take 6 (b0 :: b1 :: b2 :: b3 :: b4 :: b5 :: rest) = [b0, b1, b2, b3, b4, b5] := rfl
  rw [ht, ok_bind, Unmarshal_six]
  simp

theorem readLoop_uncompressed (c : Codec) (a : ancientTable) (idx : File)
    (hcomp : a.compressed = false) (hidx : a.index = some idx)
    (hsize : idx.length < 2 ^ 63) :
    ∀ (steps p : Nat) (dst : List Byte), 6 * (p + steps + 1) ≤ idx.length →
      (∀ i, p ≤ i → i < p + steps → ∃ f, a.data (entryAt idx i).FileNum = some f ∧
        recordLen idx i ≤ f.length - (entryAt idx i).Offset) →
      a.readLoop c steps (p + 1) (entryAt idx p) dst = .ok (dst ++ segments a idx p steps) := by
  intro steps
  induction steps with
  | zero => intro p dst _ _; simp [ancientTable.readLoop, segments]
  | succ k ih =>
    intro p dst hlen hdata
    obtain ⟨f, hf, hfl⟩ := hdata p (Nat.le_refl p) (by omega)
    have hseek : a.seek (p + 1) = .ok (entryAt idx (p + 1)) :=
      seek_ok a idx (p + 1) hidx hsize (by omega)
    have hread : ReadAt (a.data (entryAt idx p).FileNum) (recordLen idx p)
        (Int.ofNat (entryAt idx p).Offset) =
        .ok ((f.drop (entryAt idx p).Offset).take (recordLen idx p)) := by
      rw [hf]; exact ReadAt_ok f _ _ hfl
    have hrec : recordBytes a idx p = (f.drop (entryAt idx p).Offset).take (recordLen idx p) := by
      simp [recordBytes, hf]
    have hlenrec : (recordBytes a idx p).length = recordLen idx p := by
      rw [hrec, List.length_take, List.length_drop]; omega
    have hnext := ih (p + 1)
      (dst ++ marshalUint64 (recordBytes a idx p).length ++ recordBytes a idx p)
      (by omega) (fun i h1 h2 => hdata i (by omega) (by omega))
    unfold ancientTable.readLoop
    rw [hseek, ok_bind]
    have hl : ((entryAt idx (p + 1)).Offset + 2 ^ 32 - (entryAt idx p).Offset) % 2 ^ 32 =
        recordLen idx p := rfl
    rw [hl, hread, ok_bind, hcomp]
    simp only [Bool.false_eq_true, if_false]
    rw [show (pure ((f.drop (entryAt idx p).Offset).take (recordLen idx p)) :
        Except GoError (List Byte)) = Except.ok (recordBytes a idx p) from by rw [hrec]; rfl]
    rw [ok_bind, hnext, hlenrec]
    simp [segments, segment, List.append_assoc]

theorem Uint64_marshal (n : Nat) (h : n < 2 ^ 64) (rest : List Byte) :
    Uint64 (marshalUint64 n ++ rest) = .ok n := by
  simp only [marshalUint64, byte, Uint64, List.cons_append, List.nil_append]
  congr 1
  omega

theorem marshalUint64_length (n : Nat) : (marshalUint64 n).length = 8 := rfl

theorem splitSegmentsAux_join (segs : List (List Byte)) (hseg : ∀ s ∈ segs, IsSegment s) :
    ∀ fuel, segs.length ≤ fuel → splitSegmentsAux fuel segs.flatten = segs := by
  induction segs with
  | nil =>
    intro fuel _
    cases fuel with
    | zero => rfl
    | succ k => simp [splitSegmentsAux, Uint64]
  | cons s rest ih =>
    intro fuel hfuel
    obtain ⟨b, hb, rfl⟩ := hseg s (List.mem_cons_self _ _)
    cases fuel with
    | zero => simp at hfuel
    | succ k =>
      have hrest := ih (fun s hs => hseg s (List.mem_cons_of_mem _ hs)) k
        (by simpa using hfuel)
      have hu : Uint64 ((marshalUint64 b.length ++ b) ++ rest.flatten) = .ok b.length := by
        rw [List.append_assoc]; exact Uint64_marshal _ hb _
      have hlen : ¬ ((marshalUint64 b.length ++ b) ++ rest.flatten).length < 8 + b.length := by
        simp [marshalUint64_length]
      have htake : ((marshalUint64 b.length ++ b) ++ rest.flatten).take (8 + b.length) =
          marshalUint64 b.length ++ b := by
        apply List.take_left'
        simp [marshalUint64_length]
      have hdrop : ((marshalUint64 b.length ++ b) ++ rest.flatten).drop (8 + b.length) =
          rest.flatten := by
        apply List.drop_left'
        simp [marshalUint64_length]
      simp only [List.flatten_cons, splitSegmentsAux, hu, hlen, if_false, htake, hdrop, hrest]

theorem segment_length_pos (s : List Byte) (h : IsSegment s) : 8 ≤ s.length := by
  obtain ⟨b, _, rfl⟩ := h
  simp [marshalUint64_length]

theorem join_length_ge (segs : List (List Byte)) (hseg : ∀ s ∈ segs, IsSegment s) :
    segs.length ≤ segs.flatten.length := by
  induction segs with
  | nil => simp
  | cons s rest ih =>
    have h1 := segment_length_pos s (hseg s (List.mem_cons_self _ _))
    have h2 := ih (fun s hs => hseg s (List.mem_cons_of_mem _ hs))
    simp only [List.flatten_cons, List.length_append, List.length_cons]
    omega

theorem splitSegments_join (segs : List (List Byte)) (hseg : ∀ s ∈ segs, IsSegment s) :
    splitSegments segs.flatten = segs :=
  splitSegmentsAux_join segs hseg _ (join_length_ge segs hseg)

theorem readLoop_succ (c : Codec) (a : ancientTable) (k i : Nat) (indx : indexEntry)
    (dst : List Byte) :
    a.readLoop c (k + 1) i indx dst =
      a.readOne c i indx >>= fun r => a.readLoop c k (i + 1) r.1 (dst ++ r.2) := by
  simp only [ancientTable.readLoop, ancientTable.readOne, bind_assoc, pure_bind,
    List.append_assoc]
  cases a.compressed <;> simp only [Bool.false_eq_true, if_false, if_true, bind_assoc, pure_bind]

theorem ReadAt_length (f : Option File) (n : Nat) (off : Int) (out : List Byte)
    (h : ReadAt f n off = .ok out) : out.length = n := by
  unfold ReadAt at h
  cases f with
  | none => simp at h
  | some bytes =>
    simp only at h
    split at h
    · simp at h
    · split at h
      · simp at h
      · rename_i hlen
        injection h with h
        subst h
        have := List.length_take_le n (List.drop off.toNat bytes)
        omega

theorem readOne_ok (c : Codec) (a : ancientTable) (i : Nat) (indx nextIndx : indexEntry)
    (seg : List Byte)
    (hsnappy : ∀ raw out, c.snappyDecode raw = .ok out → out.length < 2 ^ 64)
    (h : a.readOne c i indx = .ok (nextIndx, seg)) :
    a.seek i = .ok nextIndx ∧ IsSegment seg := by
  unfold ancientTable.readOne at h
  cases hs : a.seek i with
  | error e => rw [hs, error_bind] at h; cases h
  | ok n =>
    rw [hs, ok_bind] at h
    cases hr : ReadAt (a.data indx.FileNum) ((n.Offset + 2 ^ 32 - indx.Offset) % 2 ^ 32)
        (Int.ofNat indx.Offset) with
    | error e => rw [hr, error_bind] at h; cases h
    | ok raw =>
      rw [hr, ok_bind] at h
      have hrawlen := ReadAt_length _ _ _ _ hr
      have hraw : raw.length < 2 ^ 64 := by
        rw [hrawlen]
        have : (n.Offset + 2 ^ 32 - indx.Offset) % 2 ^ 32 < 2 ^ 32 := Nat.mod_lt _ (by decide)
        omega
      cases hc : a.compressed with
      | false =>
        rw [hc] at h
        simp only [Bool.false_eq_true, if_false] at h
        injection h with h
        injection h with h1 h2
        subst h1; subst h2
        exact ⟨rfl, raw, hraw, rfl⟩
      | true =>
        rw [hc] at h
        simp only [if_true] at h
        cases hd : c.snappyDecode raw with
        | error e => rw [hd, error_bind] at h; cases h
        | ok out =>
          rw [hd, ok_bind] at h
          injection h with h
          injection h with h1 h2
          subst h1; subst h2
          exact ⟨rfl, out, hsnappy raw out hd, rfl⟩

theorem readData_one (c : Codec) (a : ancientTable) (n : Nat) (e nextIndx : indexEntry)
    (seg : List Byte) (hn : n + 2 < 2 ^ 64) (hs : a.seek n = .ok e)
    (h1 : a.readOne c (n + 1) e = .ok (nextIndx, seg)) :
    a.readData c [] n 1 = .ok seg := by
  have hto : (n + 1 + 1) % 2 ^ 64 = n + 2 := Nat.mod_eq_of_lt (by omega)
  have hstart : (n + 1) % 2 ^ 64 = n + 1 := Nat.mod_eq_of_lt (by omega)
  have hsteps : n + 2 - (n + 1) = 0 + 1 := by omega
  unfold ancientTable.readData
  rw [hs, ok_bind]
  simp only [hto, hstart, hsteps]
  rw [readLoop_succ, h1, ok_bind]
  simp [ancientTable.readLoop]

theorem readLoop_segments (c : Codec) (a : ancientTable)
    (hsnappy : ∀ raw out, c.snappyDecode raw = .ok out → out.length < 2 ^ 64) :
    ∀ (steps p : Nat) (e : indexEntry) (dst full : List Byte),
      p + steps + 1 < 2 ^ 64 → a.seek p = .ok e →
      a.readLoop c steps (p + 1) e dst = .ok full →
      ∃ segs : List (List Byte), segs.length = steps ∧ full = dst ++ segs.flatten ∧
        (∀ s ∈ segs, IsSegment s) ∧
        ∀ j s, segs[j]? = some s → a.readData c [] (p + j) 1 = .ok s := by
  intro steps
  induction steps with
  | zero =>
    intro p e dst full _ _ h
    simp only [ancientTable.readLoop] at h
    injection h with h
    exact ⟨[], rfl, by simp [h], by simp, by simp⟩
  | succ k ih =>
    intro p e dst full hp hs h
    rw [readLoop_succ] at h
    cases h1 : a.readOne c (p + 1) e with
    | error err => rw [h1, error_bind] at h; cases h
    | ok r =>
      obtain ⟨nextIndx, seg⟩ := r
      rw [h1, ok_bind] at h
      obtain ⟨hs1, hseg⟩ := readOne_ok c a (p + 1) e nextIndx seg hsnappy h1
      obtain ⟨segs, hlen, hfull, hall, hget⟩ :=
        ih (p + 1) nextIndx (dst ++ seg) full (by omega) hs1 h
      refine ⟨seg :: segs, by simp [hlen], by simp [hfull], ?_, ?_⟩
      · intro s hsmem
        rcases List.mem_cons.mp hsmem with rfl | hmem
        · exact hseg
        · exact hall s hmem
      · intro j s hj
        cases j with
        | zero =>
          simp at hj
          subst hj
          exact readData_one c a p e nextIndx _ (by omega) hs h1
        | succ j =>
          simp at hj
          have := hget j s hj
          rw [show p + (j + 1) = p + 1 + j by omega]
          exact this

theorem rawCodec_snappy_length (raw out : List Byte)
    (h : rawCodec.snappyDecode raw = .ok out) : out.length < 2 ^ 64 := by
  simp only [rawCodec] at h
  split at h
  · injection h with h
    subst h
    omega
  · cases h

theorem seek_max_fails (a : ancientTable) : ∃ e, a.seek (2 ^ 64 - 1) = .error e := by
  have hneg : toInt64 ((2 ^ 64 - 1) * indexEntrySize) < 0 := by decide
  unfold ancientTable.seek
  cases a.index with
  | none => exact ⟨_, rfl⟩
  | some idx =>
    refine ⟨.negativeOffset, ?_⟩
    simp only [ReadAt, hneg, if_true]
    rfl

theorem readData_max_fails (c : Codec) (a : ancientTable) (dst : List Byte) (count : Nat) :
    ∃ e, a.readData c dst (2 ^ 64 - 1) count = .error e := by
  obtain ⟨e, he⟩ := seek_max_fails a
  refine ⟨e, ?_⟩
  unfold ancientTable.readData
  rw [he]
  rfl

theorem decode_ok (c : Codec) (i : AncientIterator) {α : Type}
    (u : List Byte → Except GoError α) (t : ancientTable) (r : Except GoError α)
    (h : i.decode c u t = .ok r) :
    i.seek ≠ 2 ^ 64 - 1 ∧ ∃ payload, readPayload c t i.seek = some payload ∧ r = u payload := by
  unfold AncientIterator.decode at h
  constructor
  · intro hmax
    obtain ⟨e, he⟩ := readData_max_fails c t [] 1
    rw [hmax, he] at h
    cases h
  · cases hr : t.readData c [] i.seek 1 with
    | error e => rw [hr] at h; cases h
    | ok dst =>
      rw [hr, ok_bind] at h
      by_cases hlen : dst.length < 8
      · rw [if_pos hlen] at h; cases h
      · rw [if_neg hlen] at h
        injection h with h
        exact ⟨dst.drop 8, by simp [readPayload, hr, hlen], h.symm⟩

/-- Outcomes of `AncientIterator.Next` that return: an error with the reader
untouched, or the block at the cursor with the cursor advanced by one. -/
theorem Next_ok (c : Codec) (i i1 : AncientIterator) (r : NextResult c)
    (hseek : i.seek < 2 ^ 64) (h : i.Next c = .ok (r, i1)) :
    (∃ err, r = (none, some err) ∧ i1 = i) ∨
    (∃ block, r = (some block, none) ∧ blockRead c i.tables i.seek = some block ∧
      i1 = { i with seek := i.seek + 1 }) := by
  unfold AncientIterator.Next at h
  cases hh : i.decode c c.unmarshalHeader i.tables.headers with
  | error e => rw [hh] at h; cases h
  | ok rh =>
    rw [hh, ok_bind] at h
    obtain ⟨hne, ph, hph, hrh⟩ := decode_ok c i _ _ rh hh
    cases rh with
    | error err =>
      simp only [pure, Except.pure] at h
      injection h with h
      injection h with h1 h2
      exact Or.inl ⟨err, h1.symm, h2.symm⟩
    | ok header =>
      simp only at h
      cases hb : i.decode c c.unmarshalBody i.tables.bodies with
      | error e => rw [hb] at h; cases h
      | ok rb =>
        rw [hb, ok_bind] at h
        obtain ⟨_, pb, hpb, hrb⟩ := decode_ok c i _ _ rb hb
        cases rb with
        | error err =>
          simp only [pure, Except.pure] at h
          injection h with h
          injection h with h1 h2
          exact Or.inl ⟨err, h1.symm, h2.symm⟩
        | ok body =>
          simp only [pure, Except.pure] at h
          injection h with h
          injection h with h1 h2
          have hmod : (i.seek + 1) % 2 ^ 64 = i.seek + 1 := Nat.mod_eq_of_lt (by omega)
          rw [hmod] at h2
          refine Or.inr ⟨_, h1.symm, ?_, h2.symm⟩
          simp only [blockRead, hph, hpb, ← hrh, ← hrb]

theorem iterKey_length_of_ge (db : DB) (k : Nat) (h : db.length ≤ k) :
    (iterKey db (.row k)).length ≠ 41 := by
  have : db[k]? = none := List.getElem?_eq_none h
  simp [iterKey, this]

theorem Except_map_map {α β γ : Type} (x : Except GoError α) (f : α → β) (g : β → γ) :
    (x.map f).map g = x.map (fun a => g (f a)) := by
  cases x <;> rfl

theorem Get_notFound (db : DB) (key : List Byte) (h : ∀ row ∈ db, row.1 ≠ key) :
    DB.Get db key = .error .notFound := by
  induction db with
  | nil => rfl
  | cons row rest ih =>
    have h1 : row.1 ≠ key := h row (List.mem_cons_self _ _)
    simp only [DB.Get, h1, if_false]
    exact ih (fun r hr => h r (List.mem_cons_of_mem _ hr))

theorem Uint64_eight (b : List Byte) (h : b.length = 8) : ∃ n, Uint64 b = .ok n := by
  rcases b with _ | ⟨b0, _ | ⟨b1, _ | ⟨b2, _ | ⟨b3, _ | ⟨b4, _ | ⟨b5, _ | ⟨b6, _ | ⟨b7, rest⟩⟩⟩⟩⟩⟩⟩⟩ <;>
    simp at h
  exact ⟨_, rfl⟩

theorem decodeKey_ok (key : List Byte) (h : 9 ≤ key.length) :
    ∃ num hash, decodeKey key = .ok (num, hash) := by
  have hlen : ((key.drop 1).take 8).length = 8 := by
    rw [List.length_take, List.length_drop]; omega
  obtain ⟨n, hn⟩ := Uint64_eight _ hlen
  refine ⟨n, key.drop 9, ?_⟩
  have hnot : ¬ key.length < 9 := by omega
  simp only [decodeKey, hnot, if_false, unmarshalUint64, hn]
  rfl

theorem marshalUint64_eq_beBytes (n : Nat) : marshalUint64 n = beBytes 8 n := by
  simp only [marshalUint64, beBytes, byte, List.cons.injEq, Fin.mk.injEq, and_true]
  refine ⟨?_, ?_, ?_, ?_, ?_, ?_, ?_, ?_⟩ <;> omega

theorem bytesLE_beBytes (w : Nat) : ∀ (n m : Nat) (l r : List Byte),
    n < 256 ^ w → m < 256 ^ w →
    bytesLE (beBytes w n ++ l) (beBytes w m ++ r) =
      if n < m then true else if m < n then false else bytesLE l r := by
  induction w with
  | zero =>
    intro n m l r hn hm
    have h1 : n = 0 := by simpa using hn
    have h2 : m = 0 := by simpa using hm
    subst h1; subst h2
    simp [beBytes]
  | succ w ih =>
    intro n m l r hn hm
    have hP : 0 < 256 ^ w := by positivity
    have hqn : n / 256 ^ w < 256 := by
      apply Nat.div_lt_of_lt_mul
      rw [Nat.pow_succ] at hn
      exact hn
    have hqm : m / 256 ^ w < 256 := by
      apply Nat.div_lt_of_lt_mul
      rw [Nat.pow_succ] at hm
      exact hm
    have hrn : n % 256 ^ w < 256 ^ w := Nat.mod_lt _ hP
    have hrm : m % 256 ^ w < 256 ^ w := Nat.mod_lt _ hP
    have hdn := Nat.div_add_mod n (256 ^ w)
    have hdm := Nat.div_add_mod m (256 ^ w)
    have hrec := ih (n % 256 ^ w) (m % 256 ^ w) l r hrn hrm
    simp only [beBytes, List.cons_append, bytesLE, byte, Fin.mk_lt_mk,
      Nat.mod_eq_of_lt hqn, Nat.mod_eq_of_lt hqm, hrec]
    generalize 256 ^ w = P at *
    generalize hqa : n / P = qa at *
    generalize hqb : m / P = qb at *
    generalize n % P = ra at *
    generalize m % P = rb at *
    rcases Nat.lt_trichotomy qa qb with hlt | heq | hgt
    · have h1 : P * (qa + 1) ≤ P * qb := Nat.mul_le_mul_left P hlt
      rw [Nat.mul_succ] at h1
      have hnm : n < m := by omega
      simp [hlt, hnm]
    · subst heq
      have hirr : ¬ qa < qa := Nat.lt_irrefl _
      simp only [hirr, if_false]
      have i1 : n < m ↔ ra < rb := by omega
      have i2 : m < n ↔ rb < ra := by omega
      simp only [i1, i2]
      exact hrec
    · have h1 : P * (qb + 1) ≤ P * qa := Nat.mul_le_mul_left P hgt
      rw [Nat.mul_succ] at h1
      have hnm : m < n := by omega
      have h2 : ¬ qa < qb := by omega
      have h3 : ¬ n < m := by omega
      simp [hgt, hnm, h2, h3]

theorem bytesLE_marshal (n m : Nat) (l r : List Byte) (hn : n < 2 ^ 64) (hm : m < 2 ^ 64) :
    bytesLE (marshalUint64 n ++ l) (marshalUint64 m ++ r) =
      if n < m then true else if m < n then false else bytesLE l r := by
  rw [marshalUint64_eq_beBytes, marshalUint64_eq_beBytes]
  exact bytesLE_beBytes 8 n m l r (by norm_num; omega) (by norm_num; omega)

theorem firstGE_append_skip (key : List Byte) (xs ys : DB)
    (h : ∀ row ∈ xs, bytesLE key row.1 = false) :
    firstGE key (xs ++ ys) = (firstGE key ys).map (· + xs.length) := by
  induction xs with
  | nil => simp
  | cons row rest ih =>
    have h1 := h row (List.mem_cons_self _ _)
    have h2 := ih (fun r hr => h r (List.mem_cons_of_mem _ hr))
    have e : firstGE key (row :: rest ++ ys) =
        if bytesLE key row.1 then some 0 else (firstGE key (rest ++ ys)).map (· + 1) := rfl
    rw [e, h1, h2]
    cases firstGE key ys with
    | none => rfl
    | some v => simp [Nat.add_assoc]

theorem bytesLE_prefix_body (n m : Nat) (hash : List Byte) :
    bytesLE (headerByNumberPrefix n) (blockBodyKey m hash) = false := by
  simp [headerByNumberPrefix, blockBodyKey, headerPrefix, blockBodyPrefix, bytesLE]

theorem bytesLE_prefix_header (n m : Nat) (hash : List Byte) (hn : n < 2 ^ 64)
    (hm : m < 2 ^ 64) :
    bytesLE (headerByNumberPrefix n) (headerKey m hash) = decide (n ≤ m) := by
  have h := bytesLE_marshal n m [] hash hn hm
  rw [List.append_nil] at h
  have e : bytesLE (headerByNumberPrefix n) (headerKey m hash) =
      bytesLE (marshalUint64 n) (marshalUint64 m ++ hash) := rfl
  rw [e, h]
  by_cases h1 : n < m
  · simp [h1, Nat.le_of_lt h1]
  · by_cases h2 : m < n
    · simp [h1, h2]
    · have : n = m := by omega
      subst this
      simp [bytesLE]

theorem sorted_split (nums : List Nat) (n : Nat) (h : nums.Pairwise (· < ·)) :
    nums = nums.filter (· < n) ++ nums.filter (n ≤ ·) := by
  induction nums with
  | nil => rfl
  | cons a t ih =>
    rw [List.pairwise_cons] at h
    by_cases ha : a < n
    · have hna : ¬ n ≤ a := by omega
      have e1 : (a :: t).filter (· < n) = a :: t.filter (· < n) := by
        simp [List.filter_cons, ha]
      have e2 : (a :: t).filter (n ≤ ·) = t.filter (n ≤ ·) := by
        simp [List.filter_cons, hna]
      rw [e1, e2, List.cons_append, ← ih h.2]
    · have hlo : (a :: t).filter (· < n) = [] := by
        rw [List.filter_eq_nil_iff]
        intro x hx
        rcases List.mem_cons.mp hx with rfl | hxt
        · simpa using ha
        · have := h.1 x hxt
          simp only [decide_eq_true_eq]; omega
      have hhi : (a :: t).filter (n ≤ ·) = a :: t := by
        rw [List.filter_eq_self]
        intro x hx
        rcases List.mem_cons.mp hx with rfl | hxt
        · simp only [decide_eq_true_eq]; omega
        · have := h.1 x hxt
          simp only [decide_eq_true_eq]; omega
      rw [hlo, hhi]
      rfl

theorem blockBodyKey_inj (a m : Nat) (h1 h2 : List Byte) (ha : a < 2 ^ 64) (hm : m < 2 ^ 64)
    (h : blockBodyKey a h1 = blockBodyKey m h2) : a = m := by
  simp only [blockBodyKey, blockBodyPrefix, List.cons_append, List.nil_append,
    List.cons.injEq, true_and] at h
  have e1 := Uint64_marshal a ha h1
  have e2 := Uint64_marshal m hm h2
  rw [h, e2] at e1
  injection e1 with e1
  exact e1.symm

theorem Get_body (nums : List Nat) (hash bv : Nat → List Byte) (rest : DB) (m : Nat)
    (hbound : ∀ a ∈ nums, a < 2 ^ 64) (hm : m ∈ nums) :
    DB.Get (nums.map (fun a => (blockBodyKey a (hash a), bv a)) ++ rest)
      (blockBodyKey m (hash m)) = .ok (bv m) := by
  induction nums with
  | nil => cases hm
  | cons a t ih =>
    simp only [List.map_cons, List.cons_append, DB.Get]
    by_cases hkey : blockBodyKey a (hash a) = blockBodyKey m (hash m)
    · have ham : a = m := blockBodyKey_inj a m _ _ (hbound a (List.mem_cons_self _ _))
        (hbound m hm) hkey
      subst ham
      simp
    · rw [if_neg hkey]
      rcases List.mem_cons.mp hm with rfl | hmt
      · exact absurd rfl hkey
      · exact ih (fun x hx => hbound x (List.mem_cons_of_mem _ hx)) hmt

theorem decodeKey_headerKey (m : Nat) (hash : List Byte) (hm : m < 2 ^ 64) :
    decodeKey (headerKey m hash) = .ok (m, hash) := by
  have hlen : ¬ (headerKey m hash).length < 9 := by
    simp [headerKey, headerByNumberPrefix, headerPrefix, marshalUint64_length]
  have htake : ((headerKey m hash).drop 1).take 8 = marshalUint64 m := by
    simp only [headerKey, headerByNumberPrefix, headerPrefix, List.cons_append,
      List.nil_append, List.drop_succ_cons, List.drop_zero]
    exact List.take_left' (marshalUint64_length m)
  have hdrop : (headerKey m hash).drop 9 = hash := by
    simp only [headerKey, headerByNumberPrefix, headerPrefix, List.cons_append,
      List.nil_append, List.drop_succ_cons]
    exact List.drop_left' (marshalUint64_length m)
  have hu : Uint64 (marshalUint64 m) = .ok m := by
    have := Uint64_marshal m hm []
    rwa [List.append_nil] at this
  simp only [decodeKey, hlen, if_false, htake, hdrop, unmarshalUint64, hu]
  rfl

theorem headerKey_length (m : Nat) (hash : List Byte) (h : hash.length = 32) :
    (headerKey m hash).length = 41 := by
  simp [headerKey, headerByNumberPrefix, headerPrefix, marshalUint64_length, h]


theorem tripleDB_length (nums : List Nat) (hash hv bv rv : Nat → List Byte) :
    (tripleDB nums hash hv bv rv).length = 3 * nums.length := by
  simp [tripleDB]; omega

theorem tripleDB_header_row (nums : List Nat) (hash hv bv rv : Nat → List Byte)
    (idx m : Nat) (h : nums[idx]? = some m) :
    (tripleDB nums hash hv bv rv)[nums.length + idx]? = some (headerKey m (hash m), hv m) := by
  have hidx : idx < nums.length := by
    by_contra hge
    rw [List.getElem?_eq_none (by omega)] at h
    cases h
  unfold tripleDB
  rw [List.getElem?_append_right (by simp)]
  simp only [List.length_map, Nat.add_sub_cancel_left]
  rw [List.getElem?_append_left (by simpa using hidx)]
  simp [List.getElem?_map, h]

theorem decodeBlock_triple (c : Codec) (nums : List Nat) (hash hv bv rv : Nat → List Byte)
    (H : Nat → c.Header) (B : Nat → c.Body) (m : Nat)
    (hbound : ∀ a ∈ nums, a < 2 ^ 64)
    (hheader : ∀ a ∈ nums, c.unmarshalHeader (hv a) = .ok (H a))
    (hbody : ∀ a ∈ nums, c.unmarshalBody (bv a) = .ok (B a)) (hm : m ∈ nums) :
    LevelDBIterator.decodeBlock c (tripleDB nums hash hv bv rv) (headerKey m (hash m))
      (hv m) false = .ok (some (tripleBlock c H B m), none) := by
  have hget : DB.Get (tripleDB nums hash hv bv rv) (blockBodyKey m (hash m)) = .ok (bv m) :=
    Get_body nums hash bv _ m hbound hm
  unfold LevelDBIterator.decodeBlock
  rw [decodeKey_headerKey m (hash m) (hbound m hm), ok_bind]
  simp only [hheader m hm, hget, hbody m hm]
  rfl

theorem firstGE_header_rows (n m0 : Nat) (lo hi : List Nat) (hash hv : Nat → List Byte)
    (rest : DB) (hn : n < 2 ^ 64)
    (hlo : ∀ a ∈ lo, a < n) (hm0 : n ≤ m0) (hm0b : m0 < 2 ^ 64) :
    firstGE (headerByNumberPrefix n)
      ((lo ++ m0 :: hi).map (fun a => (headerKey a (hash a), hv a)) ++ rest) =
      some lo.length := by
  rw [List.map_append, List.append_assoc]
  rw [firstGE_append_skip]
  · have hhit : bytesLE (headerByNumberPrefix n) (headerKey m0 (hash m0)) = true := by
      rw [bytesLE_prefix_header n m0 _ hn hm0b]
      simpa using hm0
    simp [firstGE, hhit]
  · intro row hrow
    obtain ⟨a, ha, rfl⟩ := List.mem_map.mp hrow
    have := hlo a ha
    rw [bytesLE_prefix_header n a _ hn (by omega)]
    simp only [decide_eq_false_iff_not]
    omega


theorem marshal_append_inj (a b : Nat) (h1 h2 : List Byte) (ha : a < 2 ^ 64) (hb : b < 2 ^ 64)
    (h : marshalUint64 a ++ h1 = marshalUint64 b ++ h2) : a = b := by
  have e1 := Uint64_marshal a ha h1
  have e2 := Uint64_marshal b hb h2
  rw [h, e2] at e1
  injection e1 with e1
  exact e1.symm

theorem family_ascending (p : Byte) (nums : List Nat) (hash val : Nat → List Byte)
    (hsorted : nums.Pairwise (· < ·)) (hbound : ∀ a ∈ nums, a < 2 ^ 64) :
    KeysAscending (nums.map fun a => (p :: (marshalUint64 a ++ hash a), val a)) := by
  unfold KeysAscending
  rw [List.pairwise_map]
  refine List.Pairwise.imp_of_mem ?_ hsorted
  intro a b ha hb hab
  have hle : bytesLE (marshalUint64 a ++ hash a) (marshalUint64 b ++ hash b) = true := by
    rw [bytesLE_marshal a b _ _ (hbound a ha) (hbound b hb)]
    simp [hab]
  constructor
  · simp only [bytesLE, lt_self_iff_false, if_false]
    exact hle
  · intro heq
    simp only [List.cons.injEq, true_and] at heq
    have := marshal_append_inj a b _ _ (hbound a ha) (hbound b hb) heq
    omega

theorem cross_family (p q : Byte) (hpq : p < q) (x y : List Byte) :
    bytesLE (p :: x) (q :: y) = true ∧ p :: x ≠ q :: y := by
  constructor
  · simp [bytesLE, hpq]
  · intro h
    injection h with h _
    subst h
    exact absurd hpq (lt_irrefl _)

/-- The fixture `tripleDB` is an ordered source: its keys are strictly
ascending in the byte-wise order. -/
theorem tripleDB_keysAscending (nums : List Nat) (hash hv bv rv : Nat → List Byte)
    (hsorted : nums.Pairwise (· < ·)) (hbound : ∀ a ∈ nums, a < 2 ^ 64) :
    KeysAscending (tripleDB nums hash hv bv rv) := by
  have hb := family_ascending 98 nums hash bv hsorted hbound
  have hh := family_ascending 104 nums hash hv hsorted hbound
  have hr := family_ascending 114 nums hash rv hsorted hbound
  unfold KeysAscending at *
  unfold tripleDB
  rw [List.pairwise_append, List.pairwise_append]
  refine ⟨hb, ⟨hh, hr, ?_⟩, ?_⟩
  · intro r hr1 s hs1
    obtain ⟨a, _, rfl⟩ := List.mem_map.mp hr1
    obtain ⟨b, _, rfl⟩ := List.mem_map.mp hs1
    exact cross_family 104 114 (by decide) _ _
  · intro r hr1 s hs1
    obtain ⟨a, _, rfl⟩ := List.mem_map.mp hr1
    rcases List.mem_append.mp hs1 with hs2 | hs2
    · obtain ⟨b, _, rfl⟩ := List.mem_map.mp hs2
      exact cross_family 98 104 (by decide) _ _
    · obtain ⟨b, _, rfl⟩ := List.mem_map.mp hs2
      exact cross_family 98 114 (by decide) _ _


theorem entryAt_offset_lt (idx : File) (i : Nat) : (entryAt idx i).Offset < 2 ^ 32 := by
  simp only [entryAt]
  have h2 := ((idx.drop (indexEntrySize * i)).getD 2 0).isLt
  have h3 := ((idx.drop (indexEntrySize * i)).getD 3 0).isLt
  have h4 := ((idx.drop (indexEntrySize * i)).getD 4 0).isLt
  have h5 := ((idx.drop (indexEntrySize * i)).getD 5 0).isLt
  omega

theorem decode_receipts_irrelevant (c : Codec) (i : AncientIterator) (t' : ancientTable)
    {α : Type} (u : List Byte → Except GoError α) (table : ancientTable) :
    AncientIterator.decode c { i with tables := { i.tables with receipts := t' } } u table =
      i.decode c u table := rfl

theorem lastEntryOf_eq_entryAt (idx : File) (h6 : 6 ≤ idx.length) (hmod : idx.length % 6 = 0) :
    lastEntryOf idx = entryAt idx (recordCount idx) := by
  have hpos : idx.length - indexEntrySize = indexEntrySize * recordCount idx := by
    simp only [indexEntrySize, recordCount]
    omega
  simp only [lastEntryOf, entryAt, hpos]

theorem readAt_first (a : ancientTable) (idx : File) (hidx : a.index = some idx)
    (h6 : 6 ≤ idx.length) : a.readAt 0 = .ok (.ok (entryAt idx 0)) := by
  obtain ⟨b0, b1, b2, b3, b4, b5, rest, hd⟩ := take_six_drop idx 0 (by omega)
  have hread : ReadAt (some idx) indexEntrySize ((0 : Nat) : Int) =
      .ok ((idx.drop 0).take indexEntrySize) :=
    ReadAt_ok idx indexEntrySize 0 (by simp [indexEntrySize]; omega)
  have hz : ((0 : Nat) : Int) = 0 := rfl
  rw [hz] at hread
  simp only [ancientTable.readAt, hidx, hread]
  simp only [hd, indexEntrySize, entryAt, Nat.mul_zero]
  have ht : List.take 6 (b0 :: b1 :: b2 :: b3 :: b4 :: b5 :: rest) = [b0, b1, b2, b3, b4, b5] := rfl
  rw [ht, Unmarshal_six, ok_bind]
  simp [pure, Except.pure]

theorem readAt_last (a : ancientTable) (idx : File) (hidx : a.index = some idx)
    (h6 : 6 ≤ idx.length) :
    a.readAt ((idx.length : Int) - (indexEntrySize : Int)) = .ok (.ok (lastEntryOf idx)) := by
  obtain ⟨b0, b1, b2, b3, b4, b5, rest, hd⟩ := take_six_drop idx (idx.length - 6) (by omega)
  have hpos : (idx.length : Int) - (indexEntrySize : Int) = ((idx.length - 6 : Nat) : Int) := by
    simp only [indexEntrySize]; omega
  have hread : ReadAt (some idx) indexEntrySize ((idx.length - 6 : Nat) : Int) =
      .ok ((idx.drop (idx.length - 6)).take indexEntrySize) :=
    ReadAt_ok idx indexEntrySize (idx.length - 6) (by simp [indexEntrySize]; omega)
  simp only [ancientTable.readAt, hidx, hpos, hread]
  simp only [hd, indexEntrySize, lastEntryOf]
  have ht : List.take 6 (b0 :: b1 :: b2 :: b3 :: b4 :: b5 :: rest) = [b0, b1, b2, b3, b4, b5] := rfl
  rw [ht, Unmarshal_six, ok_bind]
  simp [pure, Except.pure]

theorem readAt_short (a : ancientTable) (idx : File) (hidx : a.index = some idx)
    (h6 : idx.length < 6) : a.readAt 0 = .ok (.error .eof) := by
  have hlen : ((idx.drop 0).take indexEntrySize).length < indexEntrySize := by
    simp only [List.drop_zero, List.length_take, indexEntrySize]; omega
  have hread : ReadAt (some idx) indexEntrySize 0 = .error .eof := by
    have hoff : ¬ ((0 : Int) < 0) := by omega
    have htn : (0 : Int).toNat = 0 := rfl
    simp only [ReadAt, hoff, if_false, htn, hlen, if_true]
  simp only [ancientTable.readAt, hidx, hread]
  rfl

theorem openLoop_spec (os : OS) : ∀ (steps i : Nat) (a a1 : ancientTable),
    ancientTable.openLoop os steps i a = (a1, none) →
    a1.index = a.index ∧
    ∀ f, (a1.data f).isSome ↔ (a.data f).isSome ∨ (i ≤ f ∧ f < i + steps) := by
  intro steps
  induction steps with
  | zero =>
    intro i a a1 h
    simp only [ancientTable.openLoop] at h
    injection h with h1 _
    subst h1
    exact ⟨rfl, fun f => by simp⟩
  | succ k ih =>
    intro i a a1 h
    unfold ancientTable.openLoop at h
    cases ho : os.Open (a.getDataName os i a.compressed) with
    | error err => rw [ho] at h; simp only at h; injection h with _ h2; cases h2
    | ok file =>
      rw [ho] at h
      simp only at h
      obtain ⟨h1, h2⟩ := ih (i + 1) _ a1 h
      refine ⟨h1, ?_⟩
      intro f
      rw [h2 f]
      by_cases hf : f = i
      · subst hf
        simp
      · simp only [hf, if_false]
        constructor
        · rintro (h3 | h3)
          · exact Or.inl h3
          · exact Or.inr (by omega)
        · rintro (h3 | h3)
          · exact Or.inl h3
          · exact Or.inr (by omega)

theorem openDataFiles_ok (os : OS) (a a1 : ancientTable) (idx : File)
    (hidx : a.index = some idx) (h : a.openDataFiles os = .ok (a1, none)) :
    6 ≤ idx.length ∧ a1.index = some idx ∧
    ∀ f, (a1.data f).isSome ↔
      (a.data f).isSome ∨ ((entryAt idx 0).FileNum ≤ f ∧ f < (lastEntryOf idx).FileNum) := by
  unfold ancientTable.openDataFiles at h
  rw [hidx] at h
  simp only at h
  rcases Nat.lt_or_ge idx.length 6 with hlt | hge
  · rw [readAt_short a idx hidx hlt, ok_bind] at h
    simp only [pure, Except.pure] at h
    injection h with h
    injection h with _ h2
    cases h2
  · rw [readAt_first a idx hidx hge, ok_bind] at h
    simp only at h
    rw [readAt_last a idx hidx hge, ok_bind] at h
    simp only [pure, Except.pure] at h
    injection h with h
    obtain ⟨h1, h2⟩ := openLoop_spec os _ _ a a1 h
    refine ⟨hge, by rw [h1, hidx], ?_⟩
    intro f
    rw [h2 f]
    constructor
    · rintro (h3 | h3)
      · exact Or.inl h3
      · exact Or.inr (by omega)
    · rintro (h3 | h3)
      · exact Or.inl h3
      · exact Or.inr (by omega)

theorem checkIndex_frame (os : OS) (a : ancientTable) :
    (a.checkIndex os).1.index = a.index ∧ (a.checkIndex os).1.data = a.data := by
  unfold ancientTable.checkIndex
  split
  · exact ⟨rfl, rfl⟩
  · split
    · exact ⟨rfl, rfl⟩
    · split_ifs <;> exact ⟨rfl, rfl⟩

theorem newAncientTable_ok (os : OS) (path name : String) (t : ancientTable)
    (h : newAncientTable os path name = .ok (some t, none)) :
    ∃ idx, t.index = some idx ∧ 6 ≤ idx.length ∧
      ∀ f, (t.data f).isSome ↔
        ((entryAt idx 0).FileNum ≤ f ∧ f < (lastEntryOf idx).FileNum) := by
  unfold newAncientTable at h
  simp only at h
  obtain ⟨t0, ht0⟩ : ∃ t0 : ancientTable, t0 =
      { path := path, name := name, compressed := false, index := none, data := fun _ => none } :=
    ⟨_, rfl⟩
  rw [← ht0] at h
  have hframe := checkIndex_frame os t0
  cases hci : t0.checkIndex os with
  | mk t1 err =>
    rw [hci] at h hframe
    simp only at hframe
    cases err with
    | some e => simp only [pure, Except.pure] at h; injection h with h; injection h with h1 _; cases h1
    | none =>
      simp only at h
      cases hopen : os.Open (t1.getIndexName os t1.compressed) with
      | error e =>
        rw [hopen] at h
        simp only [pure, Except.pure] at h
        injection h with h; injection h with h1 _; cases h1
      | ok idx =>
        rw [hopen] at h
        simp only at h
        cases hod : ancientTable.openDataFiles os { t1 with index := some idx } with
        | error e => rw [hod] at h; cases h
        | ok res =>
          obtain ⟨t2, err2⟩ := res
          rw [hod, ok_bind] at h
          cases err2 with
          | some e =>
            simp only [pure, Except.pure] at h
            injection h with h; injection h with h1 _; cases h1
          | none =>
            simp only [pure, Except.pure] at h
            injection h with h
            injection h with h1 _
            injection h1 with h1
            subst h1
            obtain ⟨h6, hi, hset⟩ := openDataFiles_ok os _ t2 idx rfl hod
            refine ⟨idx, hi, h6, ?_⟩
            intro f
            rw [hset f]
            have hnone : t1.data f = none := by
              rw [hframe.2, ht0]
            simp [hnone]



theorem nextBlocks_reads (c : Codec) : ∀ (k : Nat) (s s2 : AncientIterator) (bs : List (Block c)),
    s.seek < 2 ^ 64 → AncientIterator.nextBlocks c k s = some (bs, s2) →
    bs.length = k ∧ s2.seek = s.seek + k ∧ s2.tables = s.tables ∧
    ∀ j, j < k → bs[j]? = blockRead c s.tables (s.seek + j) ∧ (bs[j]?).isSome := by
  intro k
  induction k with
  | zero =>
    intro s s2 bs _ hs
    simp only [AncientIterator.nextBlocks] at hs
    injection hs with hs
    injection hs with h1 h2
    subst h1; subst h2
    exact ⟨rfl, rfl, rfl, fun j hj => by omega⟩
  | succ k ih =>
    intro s s2 bs hs hrun
    unfold AncientIterator.nextBlocks at hrun
    cases hnext : s.Next c with
    | error e => rw [hnext] at hrun; cases hrun
    | ok res =>
      obtain ⟨r, s1⟩ := res
      rcases Next_ok c s s1 r hs hnext with ⟨err, hr, _⟩ | ⟨block, hr, hblock, hs1⟩
      · subst hr; rw [hnext] at hrun; cases hrun
      · subst hr
        rw [hnext] at hrun
        simp only at hrun
        have hlt : s.seek + 1 < 2 ^ 64 := by
          rcases Nat.lt_or_ge (s.seek + 1) (2 ^ 64) with hlt | hge
          · exact hlt
          · exfalso
            have hmax : s.seek = 2 ^ 64 - 1 := by omega
            have hd : ∃ e, s.decode c c.unmarshalHeader s.tables.headers = .error e := by
              obtain ⟨e, he⟩ := readData_max_fails c s.tables.headers [] 1
              refine ⟨e, ?_⟩
              unfold AncientIterator.decode
              rw [hmax, he]; rfl
            obtain ⟨e, he⟩ := hd
            unfold AncientIterator.Next at hnext
            rw [he] at hnext
            cases hnext
        cases hrest : AncientIterator.nextBlocks c k s1 with
        | none => rw [hrest] at hrun; cases hrun
        | some rest =>
          obtain ⟨bs1, s3⟩ := rest
          rw [hrest] at hrun
          simp only at hrun
          injection hrun with hrun
          injection hrun with h1 h2
          subst h1; subst h2
          have hs1seek : s1.seek = s.seek + 1 := by rw [hs1]
          have hs1tab : s1.tables = s.tables := by rw [hs1]
          obtain ⟨hlen, hcur, htab, hget⟩ := ih s1 s3 bs1 (by omega) hrest
          refine ⟨by simp [hlen], by omega, by rw [htab, hs1tab], ?_⟩
          intro j hj
          cases j with
          | zero => simp [hblock]
          | succ j =>
            have := hget j (by omega)
            rw [hs1tab, hs1seek] at this
            rw [show s.seek + (j + 1) = s.seek + 1 + j by omega]
            simpa using this

theorem seek_ok_bound (a : ancientTable) (idx : File) (i : Nat) (hidx : a.index = some idx)
    (hb : 6 * i < 2 ^ 63) (hi : 6 * (i + 1) ≤ idx.length) :
    a.seek i = .ok (entryAt idx i) := by
  obtain ⟨b0, b1, b2, b3, b4, b5, rest, hd⟩ := take_six_drop idx (6 * i) (by omega)
  have hpos : toInt64 (i * indexEntrySize) = ((6 * i : Nat) : Int) := by
    rw [toInt64_of_lt _ (by simp [indexEntrySize]; omega)]
    simp [indexEntrySize, Nat.mul_comm]
  have hread : ReadAt (some idx) indexEntrySize ((6 * i : Nat) : Int) =
      .ok ((idx.drop (6 * i)).take indexEntrySize) :=
    ReadAt_ok idx indexEntrySize (6 * i) (by simp [indexEntrySize]; omega)
  simp only [ancientTable.seek, hidx, hpos, hread]
  simp only [hd, indexEntrySize, entryAt]
  have ht : List.take 6 (b0 :: b1 :: b2 :: b3 :: b4 :: b5 :: rest) = [b0, b1, b2, b3, b4, b5] := rfl
  rw [ht, ok_bind, Unmarshal_six]
  simp

theorem seek_eof_bound (a : ancientTable) (idx : File) (i : Nat) (hidx : a.index = some idx)
    (hb : 6 * i < 2 ^ 63) (hshort : idx.length < 6 * (i + 1)) :
    a.seek i = .error .eof := by
  have hpos : toInt64 (i * indexEntrySize) = ((6 * i : Nat) : Int) := by
    rw [toInt64_of_lt _ (by simp [indexEntrySize]; omega)]
    simp [indexEntrySize, Nat.mul_comm]
  have hlen : ((idx.drop (6 * i)).take indexEntrySize).length < indexEntrySize := by
    simp only [List.length_take, List.length_drop, indexEntrySize]; omega
  have hoff : ¬ (((6 * i : Nat) : Int) < 0) := by omega
  have htn : (((6 * i : Nat) : Int)).toNat = 6 * i := rfl
  simp only [ancientTable.seek, hidx, hpos, ReadAt, hoff, if_false, htn, hlen, if_true]
  rfl

theorem seek_nil_index (a : ancientTable) (i : Nat) (hidx : a.index = none) :
    a.seek i = .error .errInvalid := by
  simp only [ancientTable.seek, hidx, ReadAt]
  rfl

theorem ReadAt_eof (f : File) (n off : Nat) (h : f.length - off < n) :
    ReadAt (some f) n (Int.ofNat off) = .error .eof := by
  have h1 : ((f.drop off).take n).length < n := by
    rw [List.length_take, List.length_drop]; omega
  have hoff : ¬ (Int.ofNat off < 0) := by
    have : (0 : Int) ≤ Int.ofNat off := Int.ofNat_nonneg _
    omega
  have htn : (Int.ofNat off).toNat = off := rfl
  simp only [ReadAt, hoff, if_false, htn, h1, if_true]

theorem readPayload_eq_recordAt (c : Codec) (t : ancientTable) (p : Nat)
    (hb : 6 * (p + 2) < 2 ^ 63) : readPayload c t p = recordAt c t p := by
  have hto : (p + 1 + 1) % 2 ^ 64 = p + 2 := Nat.mod_eq_of_lt (by omega)
  have hstart : (p + 1) % 2 ^ 64 = p + 1 := Nat.mod_eq_of_lt (by omega)
  have hsteps : p + 2 - (p + 1) = 0 + 1 := by omega
  unfold readPayload recordAt ancientTable.readData
  cases hidx : t.index with
  | none =>
    rw [seek_nil_index t p hidx]
    rfl
  | some idx =>
    simp only [indexEntrySize]
    rcases Nat.lt_or_ge idx.length (6 * (p + 1)) with h1 | h1
    · rw [seek_eof_bound t idx p hidx (by omega) h1]
      have : idx.length < 6 * (p + 2) := by omega
      simp [this, bind, Except.bind]
    · rw [seek_ok_bound t idx p hidx (by omega) h1, ok_bind]
      simp only [hto, hstart, hsteps]
      unfold ancientTable.readLoop
      rcases Nat.lt_or_ge idx.length (6 * (p + 2)) with h2 | h2
      · rw [seek_eof_bound t idx (p + 1) hidx (by omega) h2]
        simp [h2, bind, Except.bind]
      · rw [seek_ok_bound t idx (p + 1) hidx (by omega) h2, ok_bind]
        have hnot : ¬ idx.length < 6 * (p + 2) := by omega
        have hl : ((entryAt idx (p + 1)).Offset + 2 ^ 32 - (entryAt idx p).Offset) % 2 ^ 32 =
            recordLen idx p := rfl
        rw [if_neg hnot, hl]
        cases hf : t.data (entryAt idx p).FileNum with
        | none => rfl
        | some f =>
          simp only
          rcases Nat.lt_or_ge (f.length - (entryAt idx p).Offset) (recordLen idx p) with h3 | h3
          · rw [ReadAt_eof f _ _ h3, if_pos h3]
            rfl
          · have hr := ReadAt_ok f (recordLen idx p) (entryAt idx p).Offset h3
            have hnot3 : ¬ f.length - (entryAt idx p).Offset < recordLen idx p := by omega
            have hrb : recordBytes t idx p =
                (f.drop (entryAt idx p).Offset).take (recordLen idx p) := by
              simp [recordBytes, hf]
            rw [show (Int.ofNat (entryAt idx p).Offset) =
              (((entryAt idx p).Offset : Nat) : Int) from rfl, hr, ok_bind, if_neg hnot3, hrb]
            cases hc : t.compressed
            · simp [ancientTable.readLoop, pure, Except.pure, bind, Except.bind,
                marshalUint64_length]
            · simp only [if_true]
              cases c.snappyDecode ((f.drop (entryAt idx p).Offset).take (recordLen idx p)) with
              | error e => rfl
              | ok b =>
                simp [ancientTable.readLoop, bind, Except.bind, marshalUint64_length]

theorem blockRead_eq_blockAt (c : Codec) (tables : ancientTables) (p : Nat)
    (hb : 6 * (p + 2) < 2 ^ 63) : blockRead c tables p = blockAt c tables p := by
  unfold blockRead blockAt
  rw [readPayload_eq_recordAt c tables.headers p hb, readPayload_eq_recordAt c tables.bodies p hb]



theorem le_growTo (rt : Runtime) (cap need : Nat) : need ≤ growTo rt cap need := by
  unfold growTo
  split
  · assumption
  · exact Nat.le_max_left _ _

theorem growTo_fits (rt : Runtime) (cap need : Nat) (h : need ≤ cap) :
    growTo rt cap need = cap := if_pos h

theorem growTo_idem (rt : Runtime) (cap need : Nat) :
    growTo rt (growTo rt cap need) need = growTo rt cap need :=
  growTo_fits rt _ _ (le_growTo rt cap need)

theorem sliceAfter_fits (old : List Byte) (cap : Nat) (new : List Byte)
    (h : new.length ≤ cap) :
    sliceAfter old cap new = new.take old.length ++ old.drop new.length := if_pos h

theorem nextLoop_skip (c : Codec) (rt : Runtime) (db : DB) (fuel : Nat) (cur : Cursor)
    (hkey : (iterKey db cur.pos).length ≠ 41) (hok : (iterNext db cur.pos).2 = true) :
    LevelDBIterator.nextLoop c rt db (fuel + 1) cur =
      LevelDBIterator.nextLoop c rt db fuel (cur.land rt db (iterNext db cur.pos).1) := by
  simp only [LevelDBIterator.nextLoop, cursorNext, hkey, ne_eq, not_false_eq_true, if_true, hok]

theorem nextLoop_select (c : Codec) (rt : Runtime) (db : DB) (fuel : Nat) (cur : Cursor)
    (hkey : (iterKey db cur.pos).length = 41) :
    LevelDBIterator.nextLoop c rt db (fuel + 1) cur =
      (LevelDBIterator.decodeBlock c db (keyAfterNext db cur) (valueAfterNext db cur) false).map
        fun res => (res, cur.land rt db (iterNext db cur.pos).1) := by
  simp only [LevelDBIterator.nextLoop, cursorNext, hkey, ne_eq, not_true_eq_false, if_false]

theorem Next_select_overwritten (c : Codec) (rt : Runtime) (db : DB) (j kc vc : Nat)
    (hj : j + 1 < db.length)
    (hk : (iterKey db (.row j)).length = 41)
    (hk1 : (iterKey db (.row (j + 1))).length = 41)
    (hv1 : (iterValue db (.row (j + 1))).length = (iterValue db (.row j)).length)
    (hkc : 41 ≤ kc) (hvc : (iterValue db (.row j)).length ≤ vc) :
    LevelDBIterator.Next c rt { db := db, iter := { pos := .row j, keyCap := kc, valueCap := vc } } =
      (LevelDBIterator.decodeBlock c db (iterKey db (.row (j + 1)))
        (iterValue db (.row (j + 1))) false).map fun res =>
          (res, { db := db, iter := { pos := .row (j + 1), keyCap := kc, valueCap := vc } }) := by
  have hnext : iterNext db (.row j) = (.row (j + 1), true) := by
    simp [iterNext, hj]
  have hland : Cursor.land rt db { pos := .row j, keyCap := kc, valueCap := vc }
      (iterNext db (.row j)).1 = { pos := .row (j + 1), keyCap := kc, valueCap := vc } := by
    rw [hnext]
    simp only [Cursor.land]
    rw [growTo_fits rt kc _ (by omega), growTo_fits rt vc _ (by omega)]
  have hkey : keyAfterNext db { pos := .row j, keyCap := kc, valueCap := vc } =
      iterKey db (.row (j + 1)) := by
    simp only [keyAfterNext, hnext]
    rw [sliceAfter_fits _ _ _ (by omega), hk, hk1]
    rw [List.take_of_length_le (by omega), List.drop_of_length_le (by omega), List.append_nil]
  have hval : valueAfterNext db { pos := .row j, keyCap := kc, valueCap := vc } =
      iterValue db (.row (j + 1)) := by
    simp only [valueAfterNext, hnext]
    rw [sliceAfter_fits _ _ _ (by omega), hv1]
    rw [List.take_of_length_le (by omega), List.drop_of_length_le (by omega), List.append_nil]
  unfold LevelDBIterator.Next
  simp only
  rw [nextLoop_select c rt db db.length _ hk, hland, hkey, hval, Except_map_map]

theorem Seek_gapDB_six (rt : Runtime) (pos : IterPos) (kc vc : Nat) :
    (LevelDBIterator.Seek rt
        { db := gapDB, iter := { pos := pos, keyCap := kc, valueCap := vc } } 6).1 =
      { db := gapDB,
        iter := { pos := .row 4, keyCap := growTo rt kc 41, valueCap := growTo rt vc 2 } } := rfl

theorem Seek_gapDB_nine (rt : Runtime) (pos : IterPos) (kc vc : Nat) :
    (LevelDBIterator.Seek rt
        { db := gapDB, iter := { pos := pos, keyCap := kc, valueCap := vc } } 9).1 =
      { db := gapDB,
        iter := { pos := .row 6, keyCap := growTo rt kc 41, valueCap := growTo rt vc 2 } } := rfl

theorem Seek_missingBodyDB_five (rt : Runtime) (pos : IterPos) (kc vc : Nat) :
    (LevelDBIterator.Seek rt
        { db := missingBodyDB, iter := { pos := pos, keyCap := kc, valueCap := vc } } 5).1 =
      { db := missingBodyDB,
        iter := { pos := .row 1, keyCap := growTo rt kc 41, valueCap := growTo rt vc 2 } } := rfl

/-- The fixture `gapDB` is an ordered source. -/
theorem gapDB_keysAscending : KeysAscending gapDB :=
  tripleDB_keysAscending [5, 6, 8] fixtureHash _ _ _ (by decide) (by decide)

/-- The fixture `mixedDB` is an ordered source. -/
theorem mixedDB_keysAscending : KeysAscending mixedDB := by
  unfold KeysAscending mixedDB
  decide

/-- The fixture `missingBodyDB` is an ordered source. -/
theorem missingBodyDB_keysAscending : KeysAscending missingBodyDB := by
  unfold KeysAscending missingBodyDB
  decide

/-! ## Claims -/

/-- C1: on an uncompressed table whose index file `idx` (of a size that fits
`int64`) holds entries `from .. from+count` and whose data files hold the
addressed bytes, `readData(dst, from, count)` returns `dst` followed, for
`i = from, ..., from+count-1` in that order, by the 8-byte big-endian encoding
of `L_i` and the `L_i` bytes of data file `e[i].fileNumber` starting at byte
`e[i].offset`, where `L_i` is the `uint32` difference
`e[i+1].offset - e[i].offset`. -/
theorem readData_uncompressed (c : Codec) (a : ancientTable) (idx : File)
    (dst : List Byte) (frm count : Nat)
    (hcomp : a.compressed = false) (hidx : a.index = some idx)
    (hsize : idx.length < 2 ^ 63)
    (hentries : 6 * (frm + count + 1) ≤ idx.length)
    (hdata : ∀ i, frm ≤ i → i < frm + count →
      ∃ f, a.data (entryAt idx i).FileNum = some f ∧
        recordLen idx i ≤ f.length - (entryAt idx i).Offset) :
    a.readData c dst frm count = .ok (dst ++ segments a idx frm count) := by
  have hseek : a.seek frm = .ok (entryAt idx frm) :=
    seek_ok a idx frm hidx hsize (by omega)
  have hto : (frm + count + 1) % 2 ^ 64 = frm + count + 1 := Nat.mod_eq_of_lt (by omega)
  have hstart : (frm + 1) % 2 ^ 64 = frm + 1 := Nat.mod_eq_of_lt (by omega)
  have hsteps : frm + count + 1 - (frm + 1) = count := by omega
  unfold ancientTable.readData
  rw [hseek, ok_bind]
  simp only [hto, hstart, hsteps]
  exact readLoop_uncompressed c a idx hcomp hidx hsize count frm dst hentries hdata

/-- C1 at `twoRecordTable`: both records, appended to the prefix `[9]`. -/
theorem readData_uncompressed_witness :
    twoRecordTable.readData rawCodec [9] 0 2 =
      .ok [9, 0, 0, 0, 0, 0, 0, 0, 2, 11, 12, 0, 0, 0, 0, 0, 0, 0, 3, 13, 14, 15] := by
  have h := readData_uncompressed rawCodec twoRecordTable twoRecordIndex [9] 0 2 rfl rfl
    (by decide) (by decide)
    (by
      intro i _ hi
      have hcases : i = 0 ∨ i = 1 := by omega
      rcases hcases with rfl | rfl
      · exact ⟨[11, 12, 13, 14, 15, 16, 17], rfl, by decide⟩
      · exact ⟨[11, 12, 13, 14, 15, 16, 17], rfl, by decide⟩)
  rw [h]
  rfl

/-- C2: for a table whose index file (of a size that fits `int64`) holds
`recordCount` records and every `n < recordCount`, when the whole-table read
`readData(nil, 0, recordCount)` succeeds, the single read `readData(nil, n, 1)`
succeeds too and is byte-for-byte the `n`-th length-prefixed segment of the
whole-table output.  Decompressed records are Go slices, so their length is
below `2^64`. -/
theorem readData_single_eq_segment (c : Codec) (a : ancientTable) (idx : File)
    (n : Nat) (full : List Byte)
    (hidx : a.index = some idx) (hsize : idx.length < 2 ^ 63)
    (hsnappy : ∀ raw out, c.snappyDecode raw = .ok out → out.length < 2 ^ 64)
    (hn : n < recordCount idx)
    (hfull : a.readData c [] 0 (recordCount idx) = .ok full) :
    ∃ single, a.readData c [] n 1 = .ok single ∧ (splitSegments full)[n]? = some single := by
  have _ := hidx
  have hcount : recordCount idx + 1 < 2 ^ 63 := by
    simp only [recordCount, indexEntrySize]; omega
  have hto : (0 + recordCount idx + 1) % 2 ^ 64 = recordCount idx + 1 :=
    by rw [Nat.zero_add]; exact Nat.mod_eq_of_lt (by omega)
  have hstart : (0 + 1) % 2 ^ 64 = 0 + 1 := by decide
  unfold ancientTable.readData at hfull
  cases hs : a.seek 0 with
  | error e => rw [hs, error_bind] at hfull; cases hfull
  | ok e0 =>
    rw [hs, ok_bind] at hfull
    simp only [hto, hstart] at hfull
    rw [show recordCount idx + 1 - (0 + 1) = recordCount idx by omega] at hfull
    obtain ⟨segs, hlen, hflat, hall, hget⟩ :=
      readLoop_segments c a hsnappy (recordCount idx) 0 e0 [] full (by omega) hs hfull
    have hsplit : splitSegments full = segs := by
      rw [hflat, List.nil_append]; exact splitSegments_join segs hall
    have hlt : n < segs.length := by omega
    refine ⟨segs[n], ?_, ?_⟩
    · have := hget n segs[n] (List.getElem?_eq_getElem hlt)
      rwa [Nat.zero_add] at this
    · rw [hsplit]; exact List.getElem?_eq_getElem hlt

/-- C2 at `twoRecordTable`, record 1 of 2. -/
theorem readData_single_eq_segment_witness :
    ∃ single, twoRecordTable.readData rawCodec [] 1 1 = .ok single ∧
      (splitSegments [0, 0, 0, 0, 0, 0, 0, 2, 11, 12, 0, 0, 0, 0, 0, 0, 0, 3, 13, 14, 15])[1]? =
        some single :=
  readData_single_eq_segment rawCodec twoRecordTable twoRecordIndex 1 _ rfl (by decide)
    rawCodec_snappy_length (by decide) rfl

/-- C3 fails: in `boundaryTable` entries 1 and 2 lie in different files, and the
record read for position 1 is the two bytes `[13, 14]`, not the five bytes of
data file 0 from offset 2 up to its end. -/
theorem readData_boundary_not_to_eof :
    (entryAt boundaryIndex 1).FileNum ≠ (entryAt boundaryIndex 2).FileNum ∧
    boundaryTable.readData rawCodec [] 1 1 = .ok [0, 0, 0, 0, 0, 0, 0, 2, 13, 14] ∧
    boundaryTable.data (entryAt boundaryIndex 1).FileNum = some [11, 12, 13, 14, 15, 16, 17] ∧
    (entryAt boundaryIndex 1).Offset = 2 ∧
    ([13, 14] : List Byte) ≠ List.drop 2 [11, 12, 13, 14, 15, 16, 17] := by
  refine ⟨by decide, rfl, rfl, rfl, by decide⟩

/-- C3 amended: for every table and every position `i` whose index entries
`e[i]`, `e[i+1]` are readable (the file numbers may differ or not), `readData`
reads for position `i` the `L_i` bytes of data file `e[i].fileNumber` starting
at `e[i].offset`, `L_i` being the `uint32` difference of the two offsets: it
aborts when that file is not open or holds fewer than `L_i` bytes from there,
and otherwise returns the length-prefixed record (decompressed when the table
is compressed). -/
theorem readData_single (c : Codec) (a : ancientTable) (idx : File) (i : Nat)
    (hidx : a.index = some idx) (hsize : idx.length < 2 ^ 63)
    (hentries : 6 * (i + 2) ≤ idx.length) :
    a.readData c [] i 1 =
      match a.data (entryAt idx i).FileNum with
      | none => .error .errInvalid
      | some f =>
        if recordLen idx i ≤ f.length - (entryAt idx i).Offset then
          (if a.compressed then
              c.snappyDecode ((f.drop (entryAt idx i).Offset).take (recordLen idx i))
            else .ok ((f.drop (entryAt idx i).Offset).take (recordLen idx i))) >>=
            fun b => .ok (marshalUint64 b.length ++ b)
        else .error .eof := by
  have hs0 : a.seek i = .ok (entryAt idx i) := seek_ok a idx i hidx hsize (by omega)
  have hs1 : a.seek (i + 1) = .ok (entryAt idx (i + 1)) :=
    seek_ok a idx (i + 1) hidx hsize (by omega)
  have hto : (i + 1 + 1) % 2 ^ 64 = i + 2 := Nat.mod_eq_of_lt (by omega)
  have hstart : (i + 1) % 2 ^ 64 = i + 1 := Nat.mod_eq_of_lt (by omega)
  have hsteps : i + 2 - (i + 1) = 0 + 1 := by omega
  have hl : ((entryAt idx (i + 1)).Offset + 2 ^ 32 - (entryAt idx i).Offset) % 2 ^ 32 =
      recordLen idx i := rfl
  unfold ancientTable.readData
  rw [hs0, ok_bind]
  simp only [hto, hstart, hsteps]
  rw [readLoop_succ]
  unfold ancientTable.readOne
  rw [hs1, ok_bind, hl]
  cases hf : a.data (entryAt idx i).FileNum with
  | none => rfl
  | some f =>
    simp only
    by_cases hlen : recordLen idx i ≤ f.length - (entryAt idx i).Offset
    · have hr := ReadAt_ok f _ _ hlen
      rw [if_pos hlen]
      rw [show (Int.ofNat (entryAt idx i).Offset) = (((entryAt idx i).Offset : Nat) : Int) from rfl,
        hr, ok_bind]
      cases a.compressed
      · simp [ancientTable.readLoop, pure, Except.pure, ok_bind]
      · simp only [if_true]
        cases c.snappyDecode ((f.drop (entryAt idx i).Offset).take (recordLen idx i)) with
        | error e => rfl
        | ok b => simp [ancientTable.readLoop, pure, Except.pure, ok_bind]
    · rw [if_neg hlen]
      have hr : ReadAt (some f) (recordLen idx i) (Int.ofNat (entryAt idx i).Offset) =
          .error .eof := by
        have h1 : ((f.drop (entryAt idx i).Offset).take (recordLen idx i)).length <
            recordLen idx i := by
          rw [List.length_take, List.length_drop]; omega
        have hoff : ¬ (Int.ofNat (entryAt idx i).Offset < 0) := by
          have : (0 : Int) ≤ Int.ofNat (entryAt idx i).Offset := Int.ofNat_nonneg _
          omega
        have htn : (Int.ofNat (entryAt idx i).Offset).toNat = (entryAt idx i).Offset := rfl
        simp only [ReadAt, hoff, if_false, htn, h1, if_true]
      rw [hr]
      rfl

/-- C3 (amended) at `boundaryTable`, position 1. -/
theorem readData_single_witness :
    boundaryTable.readData rawCodec [] 1 1 = .ok [0, 0, 0, 0, 0, 0, 0, 2, 13, 14] := by
  have h := readData_single rawCodec boundaryTable boundaryIndex 1 rfl (by decide) (by decide)
  rw [h]
  rfl

/-- C4, evaluated on the code: `AncientIterator.Next` has no end-of-data return
(whenever it returns, the pair is not `(nil, nil)`), and on the reader over a
headers table of 2 records, `Seek(2)` followed by `Next` aborts with `io.EOF`
raised by the index read. -/
theorem AncientIterator_Next_past_end :
    (∀ (c : Codec) (i i1 : AncientIterator) (r : NextResult c),
      i.seek < 2 ^ 64 → i.Next c = .ok (r, i1) → r ≠ (none, none)) ∧
    recordCount twoRecordIndex = 2 ∧
    (twoRecordReader.Seek 2).1.Next rawCodec = .error .eof := by
  refine ⟨?_, by decide, rfl⟩
  intro c i i1 r hseek h
  rcases Next_ok c i i1 r hseek h with ⟨err, hr, _⟩ | ⟨block, hr, _, _⟩
  · rw [hr]; intro hcontra; injection hcontra with _ h2; cases h2
  · rw [hr]; intro hcontra; injection hcontra with h1 _; cases h1

/-- C5 fails: with a header decoder that rejects the record, `Next` returns the
error and leaves the reader, cursor included, as it was. -/
theorem AncientIterator_Next_error_keeps_cursor :
    twoRecordReader.Next rejectingCodec =
      .ok ((none, some (.external 1)), twoRecordReader) ∧
    twoRecordReader.seek ≠ twoRecordReader.seek + 1 := by
  refine ⟨rfl, by decide⟩

/-- C5 amended: for every reader state with cursor `c`, a call of `Next` that
returns a block leaves the cursor at `c + 1`, and a call that returns an error
leaves the cursor at `c`. -/
theorem AncientIterator_Next_cursor (c : Codec) (i i1 : AncientIterator)
    (r : NextResult c) (hseek : i.seek < 2 ^ 64) (h : i.Next c = .ok (r, i1)) :
    (∀ block, r.1 = some block → i1.seek = i.seek + 1) ∧
    (∀ err, r.2 = some err → i1.seek = i.seek) := by
  rcases Next_ok c i i1 r hseek h with ⟨err, hr, hi⟩ | ⟨block, hr, _, hi⟩
  · subst hr; subst hi
    exact ⟨fun b hb => (nomatch hb), fun _ _ => rfl⟩
  · subst hr; subst hi
    exact ⟨fun _ _ => rfl, fun e he => (nomatch he)⟩

/-- C5 (amended) at `twoRecordReader`, whose first `Next` returns a block. -/
theorem AncientIterator_Next_cursor_witness :
    (∀ block, (some twoRecordBlock0, (none : Option GoError)).1 = some block →
      ({ twoRecordReader with seek := 1 } : AncientIterator).seek = twoRecordReader.seek + 1) ∧
    (∀ err, (some twoRecordBlock0, (none : Option GoError)).2 = some err →
      ({ twoRecordReader with seek := 1 } : AncientIterator).seek = twoRecordReader.seek) :=
  AncientIterator_Next_cursor rawCodec twoRecordReader { twoRecordReader with seek := 1 }
    (some twoRecordBlock0, none) (by decide) rfl
/-- C6 fails at a cursor whose index byte offset wraps: on the reader over the
2-record tables, `Seek(2^63)` followed by `Next` returns the block of record 0
(`int64(2^63) * 6` wraps to byte 0 of the index), although the tables hold no
record at logical position `2^63`. -/
theorem Seek_wrapped_cursor_reads_record_zero :
    AncientIterator.nextBlocks rawCodec 1 (twoRecordReader.Seek (2 ^ 63)).1 =
      some ([twoRecordBlock0], { twoRecordReader with seek := 2 ^ 63 + 1 }) ∧
    blockAt rawCodec twoRecordReader.tables 0 = some twoRecordBlock0 ∧
    blockAt rawCodec twoRecordReader.tables (2 ^ 63) = none := by
  refine ⟨rfl, rfl, rfl⟩

/-- C6 amended: for `n` and `k` with `6 * (n + k + 1) < 2^63` (the index byte
offsets of all positions read fit `int64`), if `Seek(n)` is followed by `k`
calls of `Next` that all return a block, the `j`-th block (counting from 0) is
the block at logical position `n + j`: its header is decoded from the record
that index entries `n + j`, `n + j + 1` of the headers table delimit, its
transactions from the record that the same entries of the bodies table
delimit; the cursor ends at `n + k`. -/
theorem nextBlocks_ascending (c : Codec) (k : Nat) (i i2 : AncientIterator) (n : Nat)
    (blocks : List (Block c)) (hbound : 6 * (n + k + 1) < 2 ^ 63)
    (h : AncientIterator.nextBlocks c k (i.Seek n).1 = some (blocks, i2)) :
    blocks.length = k ∧ i2.seek = n + k ∧
    ∀ j, j < k → blocks[j]? = blockAt c i.tables (n + j) ∧ (blocks[j]?).isSome := by
  have hn : (i.Seek n).1.seek < 2 ^ 64 := by
    show n < 2 ^ 64
    omega
  obtain ⟨h1, h2, _, h4⟩ := nextBlocks_reads c k (i.Seek n).1 i2 blocks hn h
  refine ⟨h1, h2, ?_⟩
  intro j hj
  obtain ⟨h5, h6⟩ := h4 j hj
  refine ⟨?_, h6⟩
  rw [h5]
  exact blockRead_eq_blockAt c i.tables (n + j) (by omega)

/-- C6 (amended) at `twoRecordReader`: `Seek(0)` and two calls of `Next`. -/
theorem nextBlocks_ascending_witness :
    [twoRecordBlock0, twoRecordBlock1].length = 2 ∧
    ({ twoRecordReader with seek := 2 } : AncientIterator).seek = 0 + 2 ∧
    ∀ j, j < 2 →
      [twoRecordBlock0, twoRecordBlock1][j]? = blockAt rawCodec twoRecordReader.tables (0 + j) ∧
      ([twoRecordBlock0, twoRecordBlock1][j]?).isSome :=
  nextBlocks_ascending rawCodec 2 twoRecordReader { twoRecordReader with seek := 2 } 0
    [twoRecordBlock0, twoRecordBlock1] (by decide) rfl

/-- C7, evaluated on the code: on `mixedDB` with the cursor on the short key of
row 2 (any buffer capacities), `Next` skips row 2 and selects row 3, the header
row of block 5 with value `[1, 5]`, but calls `i.iter.Next()` before
`decodeBlock`: the cursor moves to row 4 and writes its key `[105]` and value
`[7]` into the buffers that `key` and `val` are slices of, so the block is
built from `[105] ++ key[1:]` and `[7, 5]`, not from row 3's key and value. -/
theorem LevelDBIterator_Next_decodes_overwritten (rt : Runtime) (kc vc : Nat) :
    iterKey mixedDB (.row 3) = headerKey 5 (fixtureHash 5) ∧
    iterValue mixedDB (.row 3) = [1, 5] ∧
    LevelDBIterator.decodeBlock rawCodec mixedDB (iterKey mixedDB (.row 3))
        (iterValue mixedDB (.row 3)) false =
      .ok (some { Header := ([1, 5] : List Byte), Transactions := ([2, 5] : List Byte),
                  Receipts := ([] : List Byte) }, none) ∧
    LevelDBIterator.Next rawCodec rt
        { db := mixedDB, iter := { pos := .row 2, keyCap := kc, valueCap := vc } } =
      .ok ((some { Header := ([7, 5] : List Byte), Transactions := ([2, 5] : List Byte),
                   Receipts := ([] : List Byte) }, none),
           { db := mixedDB,
             iter := { pos := .row 4, keyCap := growTo rt kc 41, valueCap := growTo rt vc 2 } }) := by
  refine ⟨rfl, rfl, rfl, ?_⟩
  have hk : 1 ≤ growTo rt kc 41 := Nat.le_trans (by decide) (le_growTo rt kc 41)
  have hv : 1 ≤ growTo rt vc 2 := Nat.le_trans (by decide) (le_growTo rt vc 2)
  have hland3 : Cursor.land rt mixedDB { pos := .row 2, keyCap := kc, valueCap := vc }
      (iterNext mixedDB (.row 2)).1 =
      { pos := .row 3, keyCap := growTo rt kc 41, valueCap := growTo rt vc 2 } := rfl
  have hland4 : Cursor.land rt mixedDB
      { pos := .row 3, keyCap := growTo rt kc 41, valueCap := growTo rt vc 2 }
      (iterNext mixedDB (.row 3)).1 =
      { pos := .row 4, keyCap := growTo rt (growTo rt kc 41) 1,
        valueCap := growTo rt (growTo rt vc 2) 1 } := rfl
  have hkey : keyAfterNext mixedDB
      { pos := .row 3, keyCap := growTo rt kc 41, valueCap := growTo rt vc 2 } =
      (105 : Byte) :: (headerKey 5 (fixtureHash 5)).drop 1 := by
    show sliceAfter (iterKey mixedDB (.row 3)) (growTo rt kc 41) (iterKey mixedDB (.row 4)) = _
    rw [sliceAfter_fits _ _ _ hk]
    rfl
  have hval : valueAfterNext mixedDB
      { pos := .row 3, keyCap := growTo rt kc 41, valueCap := growTo rt vc 2 } = [7, 5] := by
    show sliceAfter (iterValue mixedDB (.row 3)) (growTo rt vc 2) (iterValue mixedDB (.row 4)) = _
    rw [sliceAfter_fits _ _ _ hv]
    rfl
  unfold LevelDBIterator.Next
  show (LevelDBIterator.nextLoop rawCodec rt mixedDB (5 + 1)
    { pos := .row 2, keyCap := kc, valueCap := vc }).map _ = _
  have h2 : (iterKey mixedDB (.row 2)).length ≠ 41 := by decide
  have h2ok : (iterNext mixedDB (.row 2)).2 = true := rfl
  have h3 : (iterKey mixedDB (.row 3)).length = 41 := by decide
  rw [nextLoop_skip rawCodec rt mixedDB 5 { pos := .row 2, keyCap := kc, valueCap := vc } h2 h2ok,
    hland3]
  rw [nextLoop_select rawCodec rt mixedDB 4
    { pos := .row 3, keyCap := growTo rt kc 41, valueCap := growTo rt vc 2 } h3,
    hland4, hkey, hval, growTo_fits rt _ 1 hk, growTo_fits rt _ 1 hv]
  rfl

/-- C8, evaluated on the code: in the source with rows for blocks 5, 6 and 8,
`Seek(6)` puts the cursor on the header row of block 6 (row 4).  The first
`Next` selects it, advances the cursor to the header row of block 8 and then
decodes the overwritten `key` and `val`: it returns block 8.  The second `Next`
selects the header row of block 8, advances to the receipts row of block 5 and
returns a block whose header is decoded from that receipts value.  The claim
says blocks 6 and 8. -/
theorem LevelDBIterator_Seek_Next_skips_first (rt : Runtime) (pos : IterPos) (kc vc : Nat) :
    iterKey gapDB (.row 4) = headerKey 6 (fixtureHash 6) ∧
    iterKey gapDB (.row 5) = headerKey 8 (fixtureHash 8) ∧
    iterKey gapDB (.row 6) = blockReceiptsKey 5 (fixtureHash 5) ∧
    LevelDBIterator.nextBlocks rawCodec rt 2
        (LevelDBIterator.Seek rt
          { db := gapDB, iter := { pos := pos, keyCap := kc, valueCap := vc } } 6).1 =
      some ([{ Header := ([1, 8] : List Byte), Transactions := ([2, 8] : List Byte),
               Receipts := ([] : List Byte) },
             { Header := ([3, 5] : List Byte), Transactions := ([2, 5] : List Byte),
               Receipts := ([] : List Byte) }],
            { db := gapDB,
              iter := { pos := .row 6, keyCap := growTo rt kc 41,
                        valueCap := growTo rt vc 2 } }) := by
  refine ⟨rfl, rfl, rfl, ?_⟩
  have hk := le_growTo rt kc 41
  have hv := le_growTo rt vc 2
  have h1 := Next_select_overwritten rawCodec rt gapDB 4 (growTo rt kc 41) (growTo rt vc 2)
    (by decide) (by decide) (by decide) (by decide) hk hv
  have h2 := Next_select_overwritten rawCodec rt gapDB 5 (growTo rt kc 41) (growTo rt vc 2)
    (by decide) (by decide) (by decide) (by decide) hk hv
  have h1r : LevelDBIterator.Next rawCodec rt
      { db := gapDB,
        iter := { pos := .row 4, keyCap := growTo rt kc 41, valueCap := growTo rt vc 2 } } =
      .ok ((some { Header := ([1, 8] : List Byte), Transactions := ([2, 8] : List Byte),
                   Receipts := ([] : List Byte) }, none),
           { db := gapDB,
             iter := { pos := .row 5, keyCap := growTo rt kc 41,
                       valueCap := growTo rt vc 2 } }) := by
    rw [h1]; rfl
  have h2r : LevelDBIterator.Next rawCodec rt
      { db := gapDB,
        iter := { pos := .row 5, keyCap := growTo rt kc 41, valueCap := growTo rt vc 2 } } =
      .ok ((some { Header := ([3, 5] : List Byte), Transactions := ([2, 5] : List Byte),
                   Receipts := ([] : List Byte) }, none),
           { db := gapDB,
             iter := { pos := .row 6, keyCap := growTo rt kc 41,
                       valueCap := growTo rt vc 2 } }) := by
    rw [h2]; rfl
  rw [Seek_gapDB_six]
  unfold LevelDBIterator.nextBlocks
  rw [h1r]
  simp only
  unfold LevelDBIterator.nextBlocks
  rw [h2r]
  rfl

/-- C9, evaluated on the code: in the source with rows for blocks 5, 6 and 8,
`Seek(9)` lands on the receipts row of block 5 (row 6: receipts keys sort after
header keys and are 41 bytes long too).  `Next` selects that row, advances the
cursor to the receipts row of block 6 and decodes the overwritten `key` and
`val` as a header row: with a header decoder that accepts the bytes it returns
a block made from the receipts value and the body of block 6, with one that
rejects them it returns an error; in neither case end-of-data. -/
theorem LevelDBIterator_Seek_past_end (rt : Runtime) (pos : IterPos) (kc vc : Nat) :
    iterKey gapDB (.row 6) = blockReceiptsKey 5 (fixtureHash 5) ∧
    iterKey gapDB (.row 7) = blockReceiptsKey 6 (fixtureHash 6) ∧
    LevelDBIterator.Next rawCodec rt
        (LevelDBIterator.Seek rt
          { db := gapDB, iter := { pos := pos, keyCap := kc, valueCap := vc } } 9).1 =
      .ok ((some { Header := ([3, 6] : List Byte), Transactions := ([2, 6] : List Byte),
                   Receipts := ([] : List Byte) }, none),
           { db := gapDB,
             iter := { pos := .row 7, keyCap := growTo rt kc 41,
                       valueCap := growTo rt vc 2 } }) ∧
    LevelDBIterator.Next rejectingCodec rt
        (LevelDBIterator.Seek rt
          { db := gapDB, iter := { pos := pos, keyCap := kc, valueCap := vc } } 9).1 =
      .ok ((none, some (.wrapped "failed to decode header" (.external 1))),
           { db := gapDB,
             iter := { pos := .row 7, keyCap := growTo rt kc 41,
                       valueCap := growTo rt vc 2 } }) := by
  have hk := le_growTo rt kc 41
  have hv := le_growTo rt vc 2
  have h1 := Next_select_overwritten rawCodec rt gapDB 6 (growTo rt kc 41) (growTo rt vc 2)
    (by decide) (by decide) (by decide) (by decide) hk hv
  have h2 := Next_select_overwritten rejectingCodec rt gapDB 6 (growTo rt kc 41)
    (growTo rt vc 2) (by decide) (by decide) (by decide) (by decide) hk hv
  refine ⟨rfl, rfl, ?_, ?_⟩
  · rw [Seek_gapDB_nine, h1]
    rfl
  · rw [Seek_gapDB_nine, h2]
    rfl

/-- C10, evaluated on the code.  `decodeBlock` itself reports a missing body: for
a 41-byte header key and a decodable header value, when the source has no row
under the derived body key it returns `ErrNotFound` and no block.  `Next` does
not: in `missingBodyDB`, where block 5 has a header row and no body row,
`Seek(5)` lands on that header row, and `Next` advances the cursor to the
header row of block 6 before it calls `decodeBlock`, which then sees the key
and value of block 6: `Next` returns block 6 and no error. -/
theorem Next_misses_missing_body :
    (∀ (c : Codec) (db : DB) (key val : List Byte) (includeReceipts : Bool) (header : c.Header),
      key.length = 41 → c.unmarshalHeader val = .ok header →
      (∀ num hash, decodeKey key = .ok (num, hash) →
        ∀ row ∈ db, row.1 ≠ blockBodyKey num hash) →
      LevelDBIterator.decodeBlock c db key val includeReceipts =
        .ok (none, some .notFound)) ∧
    iterKey missingBodyDB (.row 1) = headerKey 5 (fixtureHash 5) ∧
    LevelDBIterator.decodeBlock rawCodec missingBodyDB (iterKey missingBodyDB (.row 1))
        (iterValue missingBodyDB (.row 1)) false = .ok (none, some .notFound) ∧
    ∀ (rt : Runtime) (pos : IterPos) (kc vc : Nat),
      LevelDBIterator.Next rawCodec rt
          (LevelDBIterator.Seek rt
            { db := missingBodyDB,
              iter := { pos := pos, keyCap := kc, valueCap := vc } } 5).1 =
        .ok ((some { Header := ([1, 6] : List Byte), Transactions := ([2, 6] : List Byte),
                     Receipts := ([] : List Byte) }, none),
             { db := missingBodyDB,
               iter := { pos := .row 2, keyCap := growTo rt kc 41,
                         valueCap := growTo rt vc 2 } }) := by
  refine ⟨?_, rfl, rfl, ?_⟩
  · intro c db key val includeReceipts header hkey hheader hmissing
    obtain ⟨num, hash, hdec⟩ := decodeKey_ok key (by omega)
    have hget := Get_notFound db _ (hmissing num hash hdec)
    unfold LevelDBIterator.decodeBlock
    rw [hdec, ok_bind]
    simp only [hheader, hget]
    rfl
  · intro rt pos kc vc
    have h1 := Next_select_overwritten rawCodec rt missingBodyDB 1 (growTo rt kc 41)
      (growTo rt vc 2) (by decide) (by decide) (by decide) (by decide)
      (le_growTo rt kc 41) (le_growTo rt vc 2)
    rw [Seek_missingBodyDB_five, h1]
    rfl

/-- C11: for every `n < 2^64` and every 32-byte hash `h`, the header key
`'h' ++ u64be(n) ++ h` is 41 bytes long and `decodeKey` returns exactly `(n, h)`
on it; the body key `blockBodyKey n h` is `'b' ++ u64be(n) ++ h`, 41 bytes, the
header key with only its first byte replaced; and it is the key `decodeBlock`
looks up: with a decodable header value, a failed lookup of that key is the
returned error and a found row is the body that is decoded. -/
theorem decodeKey_header_body_key (c : Codec) (db : DB) (n : Nat) (h val : List Byte)
    (header : c.Header) (hn : n < 2 ^ 64) (hh : h.length = 32)
    (hheader : c.unmarshalHeader val = .ok header) :
    ((104 : Byte) :: (marshalUint64 n ++ h)).length = 41 ∧
    decodeKey ((104 : Byte) :: (marshalUint64 n ++ h)) = .ok (n, h) ∧
    blockBodyKey n h = (98 : Byte) :: (marshalUint64 n ++ h) ∧
    (blockBodyKey n h).length = 41 ∧
    blockBodyKey n h = (98 : Byte) :: ((104 : Byte) :: (marshalUint64 n ++ h)).drop 1 ∧
    (∀ err incl, db.Get ((98 : Byte) :: (marshalUint64 n ++ h)) = .error err →
      LevelDBIterator.decodeBlock c db ((104 : Byte) :: (marshalUint64 n ++ h)) val incl =
        .ok (none, some err)) ∧
    (∀ raw body, db.Get ((98 : Byte) :: (marshalUint64 n ++ h)) = .ok raw →
      c.unmarshalBody raw = .ok body →
      LevelDBIterator.decodeBlock c db ((104 : Byte) :: (marshalUint64 n ++ h)) val false =
        .ok (some { Header := header, Transactions := c.transactions body, Receipts := [] },
             none)) := by
  have hkey : (104 : Byte) :: (marshalUint64 n ++ h) = headerKey n h := rfl
  have hbkey : blockBodyKey n h = (98 : Byte) :: (marshalUint64 n ++ h) := rfl
  have hdec := decodeKey_headerKey n h hn
  refine ⟨?_, ?_, hbkey, ?_, ?_, ?_, ?_⟩
  · rw [hkey]; exact headerKey_length n h hh
  · rw [hkey]; exact hdec
  · rw [hbkey]; simp [marshalUint64_length, hh]
  · rw [hbkey]; rfl
  · intro err incl hget
    rw [← hbkey] at hget
    unfold LevelDBIterator.decodeBlock
    rw [hkey, hdec, ok_bind]
    simp only [hheader, hget]
    rfl
  · intro raw body hget hbody
    rw [← hbkey] at hget
    unfold LevelDBIterator.decodeBlock
    rw [hkey, hdec, ok_bind]
    simp only [hheader, hget, hbody]
    rfl

/-- C11 at block 5 of the source `gapDB`. -/
theorem decodeKey_header_body_key_witness :
    decodeKey ((104 : Byte) :: (marshalUint64 5 ++ fixtureHash 5)) = .ok (5, fixtureHash 5) ∧
    blockBodyKey 5 (fixtureHash 5) =
      (98 : Byte) :: ((104 : Byte) :: (marshalUint64 5 ++ fixtureHash 5)).drop 1 :=
  have h := decodeKey_header_body_key rawCodec gapDB 5 (fixtureHash 5) [1, 5]
    ([1, 5] : List Byte) (by decide) (by decide) rfl
  ⟨h.2.1, h.2.2.2.2.1⟩

/-- C12: for every `fileNumber < 2^16` and `offset < 2^32`, `Unmarshal` of the
6-byte encoding (file number in 2 big-endian bytes, offset in 4) yields exactly
`{FileNum = fileNumber, Offset = offset}`; conversely every 6-byte string
decodes to an in-range entry whose encoding is that string, so decoding is a
bijection between 6-byte strings and in-range index entries. -/
theorem Unmarshal_encodeEntry (fileNumber offset : Nat)
    (hf : fileNumber < 2 ^ 16) (ho : offset < 2 ^ 32) :
    indexEntry.Unmarshal (encodeEntry fileNumber offset) =
      .ok { FileNum := fileNumber, Offset := offset } ∧
    ∀ b : List Byte, b.length = 6 →
      ∃ e, indexEntry.Unmarshal b = .ok e ∧ e.FileNum < 2 ^ 16 ∧ e.Offset < 2 ^ 32 ∧
        encodeEntry e.FileNum e.Offset = b := by
  constructor
  · unfold encodeEntry
    rw [Unmarshal_six]
    simp only [byte]
    congr 2 <;> omega
  · intro b hb
    rcases b with _ | ⟨b0, _ | ⟨b1, _ | ⟨b2, _ | ⟨b3, _ | ⟨b4, _ | ⟨b5, _ | ⟨b6, rest⟩⟩⟩⟩⟩⟩⟩ <;>
      simp at hb
    refine ⟨_, Unmarshal_six b0 b1 b2 b3 b4 b5, ?_, ?_, ?_⟩
    · have := b0.isLt; have := b1.isLt
      show b0.val * 256 + b1.val < 2 ^ 16
      omega
    · have := b2.isLt; have := b3.isLt; have := b4.isLt; have := b5.isLt
      show b2.val * 2 ^ 24 + b3.val * 2 ^ 16 + b4.val * 2 ^ 8 + b5.val < 2 ^ 32
      omega
    · have := b0.isLt; have := b1.isLt
      have := b2.isLt; have := b3.isLt; have := b4.isLt; have := b5.isLt
      simp only [encodeEntry, byte, List.cons.injEq, and_true]
      refine ⟨?_, ?_, ?_, ?_, ?_, ?_⟩ <;> apply Fin.ext <;> simp only <;> omega

/-- C12 at file number 258 and offset 66051. -/
theorem Unmarshal_encodeEntry_witness :
    indexEntry.Unmarshal [1, 2, 0, 1, 2, 3] = .ok { FileNum := 258, Offset := 66051 } :=
  (Unmarshal_encodeEntry 258 66051 (by decide) (by decide)).1

/-- C13 fails: on the 3-byte input `[0, 1, 0]` the file number is decoded and
the call then stops in the run-time bounds panic of the offset read; `Unmarshal`
has no error result to report to its caller. -/
theorem Unmarshal_short_panics :
    Uint16 (List.take 2 [0, 1, 0]) = .ok 1 ∧
    Uint32 (List.drop 2 [0, 1, 0]) = .error .outOfRange ∧
    indexEntry.Unmarshal [0, 1, 0] = .error .outOfRange := by
  refine ⟨rfl, rfl, rfl⟩

/-- C13 amended: for every byte sequence shorter than 6 bytes,
`indexEntry.Unmarshal` does not return an entry: it stops in a run-time
out-of-range panic (of `b[:2]` or `b[2:]` below two bytes, of the offset read
otherwise). -/
theorem Unmarshal_short (b : List Byte) (h : b.length < 6) :
    indexEntry.Unmarshal b = .error .outOfRange := by
  rcases b with _ | ⟨b0, _ | ⟨b1, _ | ⟨b2, _ | ⟨b3, _ | ⟨b4, _ | ⟨b5, rest⟩⟩⟩⟩⟩⟩
  · rfl
  · rfl
  · rfl
  · rfl
  · rfl
  · rfl
  · simp only [List.length_cons] at h
    omega

/-- C13 (amended) at a 5-byte input. -/
theorem Unmarshal_short_witness :
    indexEntry.Unmarshal [0, 1, 0, 0, 0] = .error .outOfRange :=
  Unmarshal_short [0, 1, 0, 0, 0] (by decide)

/-- C14: when `os.Stat` settles the presence of both index files (each exists
or does not exist), `checkIndex` succeeds if and only if exactly one of
`<name>.cidx` and `<name>.ridx` exists; on success only the `compressed` flag
changes and it is true exactly when the `.cidx` file is the one present; with
neither file it fails with "table not found" and with both it fails with "both
compress and uncompress index found", the table unchanged in both cases. -/
theorem checkIndex_spec (os : OS) (a : ancientTable)
    (hc : os.Stat (a.getIndexName os true) = none ∨
      os.Stat (a.getIndexName os true) = some .notExist)
    (hr : os.Stat (a.getIndexName os false) = none ∨
      os.Stat (a.getIndexName os false) = some .notExist) :
    ((a.checkIndex os).2 = none ↔
      (os.Stat (a.getIndexName os true) = none ∧ os.Stat (a.getIndexName os false) ≠ none) ∨
      (os.Stat (a.getIndexName os true) ≠ none ∧ os.Stat (a.getIndexName os false) = none)) ∧
    ((a.checkIndex os).2 = none →
      ((a.checkIndex os).1.compressed = true ↔ os.Stat (a.getIndexName os true) = none) ∧
      (a.checkIndex os).1 = { a with compressed := (a.checkIndex os).1.compressed }) ∧
    (os.Stat (a.getIndexName os true) ≠ none → os.Stat (a.getIndexName os false) ≠ none →
      a.checkIndex os = (a, some (.message "table not found"))) ∧
    (os.Stat (a.getIndexName os true) = none → os.Stat (a.getIndexName os false) = none →
      a.checkIndex os = (a, some (.message "both compress and uncompress index found"))) := by
  rcases hc with hc | hc <;> rcases hr with hr | hr <;>
    simp [ancientTable.checkIndex, exists_, hc, hr]

/-- C14 at `singleFileOS`, where only `d/t.ridx` exists. -/
theorem checkIndex_spec_witness :
    (freshTable.checkIndex singleFileOS).2 = none ∧
    (freshTable.checkIndex singleFileOS).1.compressed = false := by
  have h := checkIndex_spec singleFileOS freshTable (Or.inr (by decide)) (Or.inl (by decide))
  have hok : (freshTable.checkIndex singleFileOS).2 = none :=
    h.1.mpr (Or.inr ⟨by decide, by decide⟩)
  refine ⟨hok, ?_⟩
  have hiff := (h.2.1 hok).1
  cases hcomp : (freshTable.checkIndex singleFileOS).1.compressed with
  | false => rfl
  | true => exact absurd (hiff.mp hcomp) (by decide)

/-- C16: every block that `AncientIterator.Next` returns has an empty receipt
list, and `Next` does not read the receipts table: with any other table in its
place the call has the same outcome and returns the same pair, the reader
afterwards differing only in that table. -/
theorem Next_receipts_untouched (c : Codec) (i : AncientIterator) (t' : ancientTable) :
    (∀ r i1 block, i.Next c = .ok (r, i1) → r.1 = some block → block.Receipts = []) ∧
    AncientIterator.Next c { i with tables := { i.tables with receipts := t' } } =
      (i.Next c).map fun p =>
        (p.1, { p.2 with tables := { p.2.tables with receipts := t' } }) := by
  constructor
  · intro r i1 block h hr
    unfold AncientIterator.Next at h
    cases hh : i.decode c c.unmarshalHeader i.tables.headers with
    | error e => rw [hh] at h; cases h
    | ok rh =>
      rw [hh, ok_bind] at h
      cases rh with
      | error err =>
        simp only [pure, Except.pure] at h
        injection h with h
        injection h with h1 h2
        subst h1
        cases hr
      | ok header =>
        simp only at h
        cases hb : i.decode c c.unmarshalBody i.tables.bodies with
        | error e => rw [hb] at h; cases h
        | ok rb =>
          rw [hb, ok_bind] at h
          cases rb with
          | error err =>
            simp only [pure, Except.pure] at h
            injection h with h
            injection h with h1 h2
            subst h1
            cases hr
          | ok body =>
            simp only [pure, Except.pure] at h
            injection h with h
            injection h with h1 h2
            subst h1
            injection hr with hr
            subst hr
            rfl
  · unfold AncientIterator.Next
    simp only [decode_receipts_irrelevant]
    cases i.decode c c.unmarshalHeader i.tables.headers with
    | error e => rfl
    | ok rh =>
      cases rh with
      | error err => rfl
      | ok header =>
        simp only [ok_bind]
        cases i.decode c c.unmarshalBody i.tables.bodies with
        | error e => rfl
        | ok rb =>
          cases rb with
          | error err => rfl
          | ok body => rfl

/-- C17: for every reader state and every number, `AncientIterator.Seek` returns
(with the result `false`), sets the cursor to exactly that number and leaves
the path and the three tables unchanged; it reads nothing: the tables do not
enter the result, whatever they hold. -/
theorem Seek_sets_cursor (i : AncientIterator) (number : Nat) :
    (i.Seek number).1.seek = number ∧
    (i.Seek number).1.tables = i.tables ∧
    (i.Seek number).1.path = i.path ∧
    (i.Seek number).2 = false ∧
    ∀ tables : ancientTables,
      AncientIterator.Seek { i with tables := tables } number =
        ({ (i.Seek number).1 with tables := tables }, (i.Seek number).2) := by
  refine ⟨rfl, rfl, rfl, rfl, fun _ => rfl⟩

/-- C19: for consecutive index entries `e[i]`, `e[i+1]` that are readable, the
read of record `i` asks the data file for `L_i = (e[i+1].offset - e[i].offset)
mod 2^32` bytes at `e[i].offset`, and nothing but that read decides the outcome
of `readData`; `L_i` is the plain difference when the offset does not decrease
and `2^32 - (e[i].offset - e[i+1].offset)` when it decreases. -/
theorem readData_requested_length (c : Codec) (a : ancientTable) (idx : File)
    (dst : List Byte) (i : Nat)
    (hidx : a.index = some idx) (hsize : idx.length < 2 ^ 63)
    (hentries : 6 * (i + 2) ≤ idx.length) :
    a.readData c dst i 1 =
      (ReadAt (a.data (entryAt idx i).FileNum) (recordLen idx i)
          (Int.ofNat (entryAt idx i).Offset) >>= fun raw =>
        (if a.compressed then c.snappyDecode raw else .ok raw) >>= fun b =>
          .ok (dst ++ marshalUint64 b.length ++ b)) ∧
    recordLen idx i = ((entryAt idx (i + 1)).Offset + 2 ^ 32 - (entryAt idx i).Offset) % 2 ^ 32 ∧
    ((entryAt idx i).Offset ≤ (entryAt idx (i + 1)).Offset →
      recordLen idx i = (entryAt idx (i + 1)).Offset - (entryAt idx i).Offset) ∧
    ((entryAt idx (i + 1)).Offset < (entryAt idx i).Offset →
      recordLen idx i = 2 ^ 32 - ((entryAt idx i).Offset - (entryAt idx (i + 1)).Offset)) := by
  have ho := entryAt_offset_lt idx i
  have ho1 := entryAt_offset_lt idx (i + 1)
  refine ⟨?_, rfl, ?_, ?_⟩
  · have hs0 : a.seek i = .ok (entryAt idx i) := seek_ok a idx i hidx hsize (by omega)
    have hs1 : a.seek (i + 1) = .ok (entryAt idx (i + 1)) :=
      seek_ok a idx (i + 1) hidx hsize (by omega)
    have hto : (i + 1 + 1) % 2 ^ 64 = i + 2 := Nat.mod_eq_of_lt (by omega)
    have hstart : (i + 1) % 2 ^ 64 = i + 1 := Nat.mod_eq_of_lt (by omega)
    have hsteps : i + 2 - (i + 1) = 0 + 1 := by omega
    have hl : ((entryAt idx (i + 1)).Offset + 2 ^ 32 - (entryAt idx i).Offset) % 2 ^ 32 =
        recordLen idx i := rfl
    unfold ancientTable.readData
    rw [hs0, ok_bind]
    simp only [hto, hstart, hsteps]
    unfold ancientTable.readLoop
    rw [hs1, ok_bind, hl]
    cases ReadAt (a.data (entryAt idx i).FileNum) (recordLen idx i)
        (Int.ofNat (entryAt idx i).Offset) with
    | error e => rfl
    | ok raw =>
      simp only [ok_bind]
      cases a.compressed
      · rfl
      · simp only [if_true]
        cases c.snappyDecode raw with
        | error e => rfl
        | ok b => rfl
  · intro hle
    unfold recordLen
    omega
  · intro hlt
    unfold recordLen
    omega

/-- C19 at `decreasingTable`, whose offset drops from 5 to 2: the read asks for
`2^32 - 3` bytes and fails with `io.EOF` at the data file. -/
theorem readData_requested_length_witness :
    recordLen decreasingIndex 0 = 2 ^ 32 - (5 - 2) ∧
    decreasingTable.readData rawCodec [] 0 1 =
      (ReadAt (some [11, 12, 13, 14, 15, 16, 17]) (2 ^ 32 - 3) (Int.ofNat 5) >>= fun raw =>
        (Except.ok raw : Except GoError (List Byte)) >>= fun b =>
          .ok ([] ++ marshalUint64 b.length ++ b)) := by
  have h := readData_requested_length rawCodec decreasingTable decreasingIndex [] 0 rfl
    (by decide) (by decide)
  exact ⟨h.2.2.2 (by decide), h.1⟩

/-- C15: on a table whose index file is open and whose data-file map is empty
(as `newAncientTable` hands it over), after a successful `openDataFiles` the
file numbers with an open data file are exactly those `f` with
`firstEntry.fileNumber <= f < lastEntry.fileNumber`; the data file numbered
`lastEntry.fileNumber` is not open, and no data file is open when
`firstEntry.fileNumber >= lastEntry.fileNumber`.  The last entry is the one in
the last six bytes of the index file, entry `recordCount` of a whole index. -/
theorem openDataFiles_open_set (os : OS) (a a1 : ancientTable) (idx : File)
    (hidx : a.index = some idx) (hempty : ∀ f, a.data f = none)
    (h : a.openDataFiles os = .ok (a1, none)) :
    (∀ f, (a1.data f).isSome ↔
      ((entryAt idx 0).FileNum ≤ f ∧ f < (lastEntryOf idx).FileNum)) ∧
    a1.data (lastEntryOf idx).FileNum = none ∧
    ((lastEntryOf idx).FileNum ≤ (entryAt idx 0).FileNum → ∀ f, a1.data f = none) ∧
    (idx.length % 6 = 0 → lastEntryOf idx = entryAt idx (recordCount idx)) := by
  obtain ⟨h6, _, hset⟩ := openDataFiles_ok os a a1 idx hidx h
  have hset1 : ∀ f, (a1.data f).isSome ↔
      ((entryAt idx 0).FileNum ≤ f ∧ f < (lastEntryOf idx).FileNum) := by
    intro f
    rw [hset f, hempty f]
    simp
  have hnone : ∀ f, ¬ ((entryAt idx 0).FileNum ≤ f ∧ f < (lastEntryOf idx).FileNum) →
      a1.data f = none := by
    intro f hf
    cases hd : a1.data f with
    | none => rfl
    | some file =>
      have := (hset1 f).mp (by rw [hd]; rfl)
      exact absurd this hf
  refine ⟨hset1, hnone _ (by omega), ?_, ?_⟩
  · intro hle f
    exact hnone f (by omega)
  · intro hmod
    exact lastEntryOf_eq_entryAt idx h6 hmod

/-- C15 at `boundaryOS`: first file number 0, last file number 1, so exactly
data file 0 is open. -/
theorem openDataFiles_open_set_witness :
    (∀ f, (boundaryOpened.data f).isSome ↔
      ((entryAt boundaryIndex 0).FileNum ≤ f ∧ f < (lastEntryOf boundaryIndex).FileNum)) ∧
    boundaryOpened.data (lastEntryOf boundaryIndex).FileNum = none ∧
    ((lastEntryOf boundaryIndex).FileNum ≤ (entryAt boundaryIndex 0).FileNum →
      ∀ f, boundaryOpened.data f = none) ∧
    (boundaryIndex.length % 6 = 0 →
      lastEntryOf boundaryIndex = entryAt boundaryIndex (recordCount boundaryIndex)) :=
  openDataFiles_open_set boundaryOS { freshTable with index := some boundaryIndex }
    boundaryOpened boundaryIndex rfl (fun _ => rfl) rfl

/-- C18 fails at the largest count: the table that `newAncientTable` opens on
`singleFileOS` has all its records in data file 0, the file number of its last
index entry, and `readData(dst, 0, 2^64 - 1)` returns `dst` without aborting:
`to = from + count + 1` wraps to 0 and the loop does not run. -/
theorem readData_wrapped_count_returns :
    newAncientTable singleFileOS "d" "t" = .ok (some singleFileTable, none) ∧
    (entryAt twoRecordIndex 0).FileNum = (lastEntryOf twoRecordIndex).FileNum ∧
    1 ≤ 2 ^ 64 - 1 ∧
    singleFileTable.readData rawCodec [9] 0 (2 ^ 64 - 1) = .ok [9] := by
  refine ⟨rfl, by decide, by decide, rfl⟩

/-- C18 amended: for every table opened by `newAncientTable` (index file of a
size that fits `int64`), every position `i` whose index entry `e[i]` is
readable and has the file number of the last index entry, and every `count`
with `1 <= count` and `i + count + 1 < 2^64`, `readData(dst, i, count)` returns
no data: the data file of `e[i].fileNumber` is not open, and the call aborts,
with `ErrInvalid` from the read on the nil file, or with `io.EOF` when entry
`i + 1` is past the end of the index. -/
theorem readData_last_file_aborts (c : Codec) (os : OS) (path name : String)
    (t : ancientTable) (idx : File) (dst : List Byte) (i count : Nat)
    (hopen : newAncientTable os path name = .ok (some t, none))
    (hidx : t.index = some idx) (hsize : idx.length < 2 ^ 63)
    (hi : 6 * (i + 1) ≤ idx.length)
    (hfile : (entryAt idx i).FileNum = (lastEntryOf idx).FileNum)
    (hcount : 1 ≤ count) (hwrap : i + count + 1 < 2 ^ 64) :
    t.data (entryAt idx i).FileNum = none ∧
    (t.readData c dst i count = .error .errInvalid ∨
      t.readData c dst i count = .error .eof) := by
  obtain ⟨idx1, hidx1, _, hset⟩ := newAncientTable_ok os path name t hopen
  have hsame : idx1 = idx := by
    rw [hidx] at hidx1
    injection hidx1 with h
    exact h.symm
  subst hsame
  have hnone : t.data (entryAt idx1 i).FileNum = none := by
    cases hd : t.data (entryAt idx1 i).FileNum with
    | none => rfl
    | some file =>
      have := (hset _).mp (by rw [hd]; rfl)
      omega
  refine ⟨hnone, ?_⟩
  have hs0 : t.seek i = .ok (entryAt idx1 i) := seek_ok t idx1 i hidx hsize hi
  have hto : (i + count + 1) % 2 ^ 64 = i + count + 1 := Nat.mod_eq_of_lt hwrap
  have hstart : (i + 1) % 2 ^ 64 = i + 1 := Nat.mod_eq_of_lt (by omega)
  obtain ⟨k, hk⟩ : ∃ k, i + count + 1 - (i + 1) = k + 1 := ⟨count - 1, by omega⟩
  unfold ancientTable.readData
  rw [hs0, ok_bind]
  simp only [hto, hstart, hk]
  unfold ancientTable.readLoop
  rcases Nat.lt_or_ge idx1.length (6 * (i + 2)) with hshort | hlong
  · right
    have hseek : t.seek (i + 1) = .error .eof := by
      have hpos : toInt64 ((i + 1) * indexEntrySize) = ((6 * (i + 1) : Nat) : Int) := by
        rw [toInt64_of_lt _ (by simp [indexEntrySize]; omega)]
        simp [indexEntrySize, Nat.mul_comm]
      have hlen : ((idx1.drop (6 * (i + 1))).take indexEntrySize).length < indexEntrySize := by
        simp only [List.length_take, List.length_drop, indexEntrySize]; omega
      have hoff : ¬ (((6 * (i + 1) : Nat) : Int) < 0) := by omega
      have htn : (((6 * (i + 1) : Nat) : Int)).toNat = 6 * (i + 1) := rfl
      simp only [ancientTable.seek, hidx, hpos, ReadAt, hoff, if_false, htn, hlen, if_true]
      rfl
    rw [hseek]
    rfl
  · left
    have hs1 : t.seek (i + 1) = .ok (entryAt idx1 (i + 1)) :=
      seek_ok t idx1 (i + 1) hidx hsize (by omega)
    rw [hs1, ok_bind, hnone]
    rfl

/-- C18 (amended) at the table opened on `singleFileOS`, position 0, count 1. -/
theorem readData_last_file_aborts_witness :
    singleFileTable.data (entryAt twoRecordIndex 0).FileNum = none ∧
    (singleFileTable.readData rawCodec [] 0 1 = .error .errInvalid ∨
      singleFileTable.readData rawCodec [] 0 1 = .error .eof) :=
  readData_last_file_aborts rawCodec singleFileOS "d" "t" singleFileTable twoRecordIndex
    [] 0 1 rfl rfl (by decide) (by decide) (by decide) (by decide) (by decide)


end StateBench
